import Mathlib

/-!
Shallow embedding of the batchdag-mini-spark master/worker core.

Translated from the Go sources:
  internal/common/types.go        (shared data model)
  internal/master/api.go          (HTTP handlers: submit, complete-task)
  internal/master/scheduler.go    (source fan-out, gating, health check)
  internal/master/state.go        (progress tables, SaveState/LoadState)
  internal/worker/executor.go     (ExecuteTask, reportCompletion, spill reduce)
  internal/operators/operators.go (ReadCSV, Map, FlatMap, Filter, ReduceByKey, Join)

Modelling conventions:
  * Go maps are modelled either as association lists (when the code ranges
    over them: Jobs, Workers, TaskAssignments) or as functions into Option
    (pure lookup tables: progress maps, outputs, RunningTasks).  Reading a
    missing key yields the Go zero value exactly where the code does.
  * `uuid.New()` is modelled by a monotone counter `nextId`; task ids are Nat.
  * `time.Time` is modelled as Nat (seconds); `now.Sub(hb) > 10*time.Second`
    becomes `10 < now - hb` on Nat.
  * Files are modelled as `fs : String -> Option (List String)` (path to
    lines); `os.Open` failing is `none`.  `os.Create` is modelled as always
    succeeding, matching the pure content of the operators.
  * The buffered TaskQueue channel is a list; the deferred
    `go func(t){queue <- t}` enqueues are appended synchronously.
-/

namespace MiniSpark

/-- Association-list lookup, mirroring a Go map read with comma-ok. -/
def alGet {β : Type} : List (String × β) → String → Option β
  | [], _ => none
  | p :: ps, k => if p.1 = k then some p.2 else alGet ps k

/-- Association-list write, mirroring a Go map assignment
(replace when present, append when absent). -/
def alSet {β : Type} : List (String × β) → String → β → List (String × β)
  | [], k, v => [(k, v)]
  | p :: ps, k, v => if p.1 = k then (k, v) :: ps else p :: alSet ps k v

/-- Association list with Nat keys (task ids). -/
def nlGet {β : Type} : List (Nat × β) → Nat → Option β
  | [], _ => none
  | p :: ps, k => if p.1 = k then some p.2 else nlGet ps k

/-- Delete every entry with the given key, mirroring Go `delete(m, k)`. -/
def nlDel {β : Type} : List (Nat × β) → Nat → List (Nat × β)
  | [], _ => []
  | p :: ps, k => if p.1 = k then nlDel ps k else p :: nlDel ps k

/-- types.go: DAGNode. -/
structure DAGNode where
  id : String
  op : String
  fn : String
  path : String
  partitions : Int
  key : String
  deriving DecidableEq, Repr

/-- types.go: DAG; an edge is `(source_id, dest_id)` (Go `[]string{src, dst}`). -/
structure DAG where
  nodes : List DAGNode
  edges : List (String × String)
  deriving DecidableEq, Repr

/-- types.go: Job (revision with the Parallelism field used by api.go). -/
structure Job where
  id : String
  name : String
  status : String
  graph : DAG
  parallelism : Int
  submitted : Nat
  completed : Nat
  deriving DecidableEq, Repr

/-- types.go: Task (revision with PartitionID/TotalPartitions used by
scheduler.go; the id is a Nat standing for the uuid string). -/
structure Task where
  id : Nat
  jobId : String
  nodeId : String
  op : String
  fn : String
  args : List String
  inputFiles : List String
  partitionId : Nat
  totalPartitions : Nat
  attempt : Nat
  deriving DecidableEq, Repr

/-- types.go: TaskResult (revision with the PartitionID field read by
api.go CompleteTaskHandler). -/
structure TaskResult where
  id : Nat
  jobId : String
  nodeId : String
  partitionId : Nat
  status : String
  result : String
  errorMsg : String
  deriving DecidableEq, Repr

/-- types.go: JobRequest. -/
structure JobRequest where
  name : String
  dag : DAG
  parallelism : Int
  deriving DecidableEq, Repr

/-- types.go: WorkerInfo (metrics carry no control-flow weight and are
not modelled). -/
structure WorkerInfo where
  id : String
  url : String
  lastHeartbeat : Nat
  status : String
  deriving DecidableEq, Repr

/-- state.go SaveState: the snapshot struct `{Jobs, JobOutputs, JobFailures}`. -/
structure Snapshot where
  jobs : List (String × Job)
  jobOutputs : String → Option (String → Option String)
  jobFailures : String → Nat

/-- state.go: the Master coordination state.  `saved` is the content of the
state file after the most recent SaveState. -/
structure MasterState where
  workers : List (String × WorkerInfo)
  jobs : List (String × Job)
  jobProgress : String → Option (String → Option String)
  taskProgress : String → Option (String → Option (Nat → Option String))
  jobOutputs : String → Option (String → Option String)
  jobPartitionOutputs : String → Option (String → Option (Nat → Option String))
  jobFailures : String → Nat
  queue : List Task
  assignments : List (Nat × String)
  runningTasks : Nat → Option Task
  nextId : Nat
  saved : Option Snapshot

/-- types.go: `MaxRetries = 3`. -/
def maxRetries : Nat := 3

/-- state.go NewMaster (the state file starts absent). -/
def newMaster : MasterState :=
  { workers := []
    jobs := []
    jobProgress := fun _ => none
    taskProgress := fun _ => none
    jobOutputs := fun _ => none
    jobPartitionOutputs := fun _ => none
    jobFailures := fun _ => 0
    queue := []
    assignments := []
    runningTasks := fun _ => none
    nextId := 0
    saved := none }

/-- state.go getNodeStatus: missing job map gives "PENDING"; a missing node
inside an existing job map gives the Go zero value "". -/
def getNodeStatus (st : MasterState) (jobID nodeID : String) : String :=
  match st.jobProgress jobID with
  | some s => (s nodeID).getD ""
  | none => "PENDING"

/-- state.go getPartitionStatus: missing job or node map gives "PENDING"; a
missing partition inside an existing node map gives the zero value "". -/
def getPartitionStatus (st : MasterState) (jobID nodeID : String) (partID : Nat) : String :=
  match st.taskProgress jobID with
  | some jobMap =>
    match jobMap nodeID with
    | some nodeMap => (nodeMap partID).getD ""
    | none => "PENDING"
  | none => "PENDING"

/-- state.go setNodeStatus (creates the job map when missing). -/
def setNodeStatus (st : MasterState) (jobID nodeID status : String) : MasterState :=
  let jm := (st.jobProgress jobID).getD (fun _ => none)
  let jm2 := fun n => if n = nodeID then some status else jm n
  { st with jobProgress := fun j => if j = jobID then some jm2 else st.jobProgress j }

/-- state.go setPartitionStatus (creates missing maps). -/
def setPartitionStatus (st : MasterState) (jobID nodeID : String) (partID : Nat)
    (status : String) : MasterState :=
  let jm := (st.taskProgress jobID).getD (fun _ => none)
  let nm := (jm nodeID).getD (fun _ => none)
  let nm2 := fun i => if i = partID then some status else nm i
  let jm2 := fun n => if n = nodeID then some nm2 else jm n
  { st with taskProgress := fun j => if j = jobID then some jm2 else st.taskProgress j }

/-- api.go CompleteTaskHandler: `m.JobPartitionOutputs[res.JobID][res.NodeID][res.PartitionID] = res.Result`
(creating missing maps, as the handler does). -/
def setJobPartitionOutput (st : MasterState) (jobID nodeID : String) (partID : Nat)
    (path : String) : MasterState :=
  let jm := (st.jobPartitionOutputs jobID).getD (fun _ => none)
  let nm := (jm nodeID).getD (fun _ => none)
  let nm2 := fun i => if i = partID then some path else nm i
  let jm2 := fun n => if n = nodeID then some nm2 else jm n
  { st with jobPartitionOutputs := fun j => if j = jobID then some jm2 else st.jobPartitionOutputs j }

/-- api.go CompleteTaskHandler: `m.JobOutputs[res.JobID][res.NodeID] = res.Result`. -/
def setJobOutput (st : MasterState) (jobID nodeID path : String) : MasterState :=
  let jm := (st.jobOutputs jobID).getD (fun _ => none)
  let jm2 := fun n => if n = nodeID then some path else jm n
  { st with jobOutputs := fun j => if j = jobID then some jm2 else st.jobOutputs j }

/-- Effective parallelism: `p := job.Parallelism; if p < 1 { p = 1 }`. -/
def effP (job : Job) : Nat :=
  if job.parallelism < 1 then 1 else job.parallelism.toNat

/-- state.go InitJobProgress: every node PENDING, every partition 0..p-1 PENDING
(the node map is replaced by a fresh one, as in the Go loop). -/
def initJobProgress (st : MasterState) (job : Job) : MasterState :=
  let st :=
    { st with
      jobProgress := fun j =>
        if j = job.id then some ((st.jobProgress job.id).getD (fun _ => none)) else st.jobProgress j
      taskProgress := fun j =>
        if j = job.id then some ((st.taskProgress job.id).getD (fun _ => none)) else st.taskProgress j
      jobPartitionOutputs := fun j =>
        if j = job.id then some ((st.jobPartitionOutputs job.id).getD (fun _ => none))
        else st.jobPartitionOutputs j }
  job.graph.nodes.foldl (fun acc node =>
    let acc := setNodeStatus acc job.id node.id "PENDING"
    -- `m.TaskProgress[job.ID][node.ID] = make(map[int]string)` replaces the node map
    let jm := (acc.taskProgress job.id).getD (fun _ => none)
    let jm2 := fun n => if n = node.id then some (fun _ => (none : Option String)) else jm n
    let acc := { acc with taskProgress := fun j => if j = job.id then some jm2 else acc.taskProgress j }
    (List.range (effP job)).foldl (fun a i => setPartitionStatus a job.id node.id i "PENDING") acc)
    st

/-- state.go SaveState: the serialized snapshot. -/
def snapshotOf (st : MasterState) : Snapshot :=
  { jobs := st.jobs, jobOutputs := st.jobOutputs, jobFailures := st.jobFailures }

/-- state.go SaveState (the JSON encode/decode round trip is the identity in
this embedding). -/
def saveState (st : MasterState) : MasterState :=
  { st with saved := some (snapshotOf st) }

/-- state.go LoadState, inner loop for a COMPLETED job: mark every node and
every partition 0..p-1 COMPLETED. -/
def markJobComplete (st : MasterState) (job : Job) : MasterState :=
  job.graph.nodes.foldl (fun a node =>
    let a := setNodeStatus a job.id node.id "COMPLETED"
    (List.range (effP job)).foldl
      (fun b i => setPartitionStatus b job.id node.id i "COMPLETED") a) st

/-- state.go LoadState, loop body for one restored job: rebuild its progress
tables, and mark everything COMPLETED when the job finished. -/
def loadStep (acc : MasterState) (entry : String × Job) : MasterState :=
  let acc := initJobProgress acc entry.2
  if entry.2.status = "COMPLETED" then markJobComplete acc entry.2 else acc

/-- state.go LoadState: restore Jobs/JobOutputs/JobFailures, rebuild progress,
and mark everything COMPLETED for COMPLETED jobs. -/
def loadState (st : MasterState) (snap : Snapshot) : MasterState :=
  let st := { st with jobs := snap.jobs, jobOutputs := snap.jobOutputs,
                      jobFailures := snap.jobFailures }
  snap.jobs.foldl loadStep st

/-- api.go GetJobResultsHandler: out-degree of a node. -/
def outDegree (g : DAG) (nodeID : String) : Nat :=
  g.edges.foldl (fun acc e => if e.1 = nodeID then acc + 1 else acc) 0

/-- api.go GetJobResultsHandler: the sink (out-degree 0) nodes' recorded
output paths for a job, in node-declaration order. -/
def sinkOutputs (st : MasterState) (jobID : String) : List (String × String) :=
  match alGet st.jobs jobID with
  | none => []
  | some job =>
    job.graph.nodes.foldl (fun acc node =>
      if outDegree job.graph node.id = 0 then
        match (match st.jobOutputs jobID with | some m => m node.id | none => none) with
        | some path => acc ++ [(node.id, path)]
        | none => acc
      else acc) []

/-- scheduler.go queueTask: mark the partition SCHEDULED, the node RUNNING,
build the Task (fresh uuid = `nextId`, attempt 1, `Args = []string{node.Path}`)
and push it on the queue. -/
def queueTask (st : MasterState) (jobID : String) (node : DAGNode) (inputs : List String)
    (partID totalParts : Nat) : MasterState :=
  let st := setPartitionStatus st jobID node.id partID "SCHEDULED"
  let st := setNodeStatus st jobID node.id "RUNNING"
  let task : Task :=
    { id := st.nextId, jobId := jobID, nodeId := node.id, op := node.op, fn := node.fn
      args := [node.path], inputFiles := inputs, partitionId := partID
      totalPartitions := totalParts, attempt := 1 }
  { st with queue := st.queue ++ [task], nextId := st.nextId + 1 }

/-- scheduler.go ScheduleSourceTasks: in-degree count over edges. -/
def inDegree (g : DAG) (nodeID : String) : Nat :=
  g.edges.foldl (fun acc e => if e.2 = nodeID then acc + 1 else acc) 0

/-- scheduler.go ScheduleSourceTasks: every in-degree-0 node gets one task per
partition 0..p-1 with an empty input list. -/
def scheduleSourceTasks (st : MasterState) (job : Job) : MasterState :=
  let p := effP job
  job.graph.nodes.foldl (fun acc node =>
    if inDegree job.graph node.id = 0 then
      (List.range p).foldl (fun a i => queueTask a job.id node [] i p) acc
    else acc) st

/-- The node-level per-partition output map `m.JobPartitionOutputs[jobID][nodeID]`
(absent outer map reads as an absent inner map, as for a nil Go map). -/
def jpoLookup (st : MasterState) (jobID nodeID : String) : Option (Nat → Option String) :=
  match st.jobPartitionOutputs jobID with
  | some jm => jm nodeID
  | none => none

/-- The recorded output path of (job, node, partition): `outputs[i]` reads the
zero value "" when the partition entry is missing, and a missing node map
contributes nothing (see scanParents). -/
def recordedOutput (st : MasterState) (jobID nodeID : String) (i : Nat) : String :=
  match jpoLookup st jobID nodeID with
  | some nm => (nm i).getD ""
  | none => ""

/-- scheduler.go CheckAndScheduleDependents, inner edge loop for one
(node, partition): returns (allParentsDone, hasParents, inputFiles).  The Go
loop breaks on the first parent whose partition `i` is not COMPLETED; a parent
whose node-level output map is missing contributes no input file, and a missing
partition entry inside an existing map contributes the zero value "". -/
def scanParents (st : MasterState) (jobID : String) (i : Nat) (nodeID : String) :
    List (String × String) → Bool × Bool × List String
  | [] => (true, false, [])
  | e :: rest =>
    if e.2 = nodeID then
      if ¬ getPartitionStatus st jobID e.1 i = "COMPLETED" then (false, true, [])
      else
        let fs :=
          match jpoLookup st jobID e.1 with
          | some nm => [(nm i).getD ""]
          | none => []
        let r := scanParents st jobID i nodeID rest
        (r.1, true, fs ++ r.2.2)
    else scanParents st jobID i nodeID rest

/-- scheduler.go CheckAndScheduleDependents: for every node and every still
PENDING partition i, enqueue when the node has parents and partition i of every
parent is COMPLETED, with inputs in edge-declaration order. -/
def checkAndScheduleDependents (st : MasterState) (job : Job) : MasterState :=
  let p := effP job
  job.graph.nodes.foldl (fun acc node =>
    (List.range p).foldl (fun acc2 i =>
      if ¬ getPartitionStatus acc2 job.id node.id i = "PENDING" then acc2
      else
        let r := scanParents acc2 job.id i node.id job.graph.edges
        if r.2.1 && r.1 then queueTask acc2 job.id node r.2.2 i p else acc2) acc) st

/-- scheduler.go CheckJobCompletion: when every partition of every node is
COMPLETED, mark the job COMPLETED with `completed_at = now` and persist. -/
def checkJobCompletion (st : MasterState) (job : Job) (now : Nat) : MasterState :=
  let p := effP job
  let allDone := job.graph.nodes.all (fun node =>
    (List.range p).all (fun i =>
      getPartitionStatus st job.id node.id i = "COMPLETED"))
  if allDone then
    let j2 := { job with status := "COMPLETED", completed := now }
    saveState { st with jobs := alSet st.jobs job.id j2 }
  else st

/-- api.go CompleteTaskHandler, FAILED path else-branch:
`if job, ok := m.Jobs[res.JobID]; ok { job.Status = "FAILED"; job.Completed = now }`. -/
def failJob (st : MasterState) (jobID : String) (now : Nat) : MasterState :=
  match alGet st.jobs jobID with
  | some job =>
    let j2 := { job with status := "FAILED", completed := now }
    { st with jobs := alSet st.jobs jobID j2 }
  | none => st

/-- api.go CompleteTaskHandler. -/
def completeTask (st : MasterState) (res : TaskResult) (now : Nat) : MasterState :=
  -- delete(m.TaskAssignments, res.ID); look up then delete the running task
  let st := { st with assignments := nlDel st.assignments res.id }
  let originalTask := st.runningTasks res.id
  let st := { st with runningTasks := fun k => if k = res.id then none else st.runningTasks k }
  if res.status = "FAILED" then
    -- m.JobFailures[res.JobID]++
    let st := { st with jobFailures := fun j =>
      if j = res.jobId then st.jobFailures j + 1 else st.jobFailures j }
    let st :=
      match originalTask with
      | some t =>
        if t.attempt < maxRetries then
          let retry := { t with attempt := t.attempt + 1, id := st.nextId }
          { st with queue := st.queue ++ [retry], nextId := st.nextId + 1 }
        else failJob st res.jobId now
      | none => failJob st res.jobId now
    saveState st
  else
    -- success path
    let st := setPartitionStatus st res.jobId res.nodeId res.partitionId "COMPLETED"
    let st :=
      match alGet st.jobs res.jobId with
      | some job =>
        let p := effP job
        let isNodeDone := (List.range p).all (fun i =>
          getPartitionStatus st res.jobId res.nodeId i = "COMPLETED")
        if isNodeDone then setNodeStatus st res.jobId res.nodeId "COMPLETED" else st
      | none => st
    let st := setJobPartitionOutput st res.jobId res.nodeId res.partitionId res.result
    let st := setJobOutput st res.jobId res.nodeId res.result
    let st := saveState st
    match alGet st.jobs res.jobId with
    | some job => checkJobCompletion (checkAndScheduleDependents st job) job now
    | none => st

/-- api.go SubmitJobHandler: no DAG validation of any kind is performed; the
job is stored with status RUNNING, progress is initialised, state persisted,
and source tasks are scheduled (the handler spawns ScheduleSourceTasks in a
goroutine; it is sequenced here).  `jobID` stands for the fresh uuid. -/
def submittedJob (req : JobRequest) (jobID : String) (now : Nat) : Job :=
  { id := jobID, name := req.name, status := "RUNNING", graph := req.dag
    parallelism := req.parallelism, submitted := now, completed := 0 }

def submitJob (st : MasterState) (req : JobRequest) (jobID : String) (now : Nat) :
    MasterState :=
  let job : Job := submittedJob req jobID now
  let st := { st with jobs := alSet st.jobs jobID job }
  let st := initJobProgress st job
  let st := saveState st
  scheduleSourceTasks st job

/-- scheduler.go HealthCheckLoop, inner loop over TaskAssignments for one dead
worker: entries assigned to it whose task is still running are dropped from the
assignment and running-task tables and re-enqueued under a fresh id. -/
def requeueAux (wid : String) : List (Nat × String) → MasterState → MasterState
  | [], st => st
  | p :: rest, st =>
    if p.2 = wid then
      match st.runningTasks p.1 with
      | some task =>
        let fresh := { task with id := st.nextId }
        requeueAux wid rest
          { st with
            assignments := nlDel st.assignments p.1
            runningTasks := fun k => if k = p.1 then none else st.runningTasks k
            queue := st.queue ++ [fresh]
            nextId := st.nextId + 1 }
      | none => requeueAux wid rest st
    else requeueAux wid rest st

/-- Mark a worker DOWN in the registry (pointer write `w.Status = "DOWN"`). -/
def markDown : List (String × WorkerInfo) → String → List (String × WorkerInfo)
  | [], _ => []
  | p :: ps, wid =>
    (if p.1 = wid then (p.1, { p.2 with status := "DOWN" }) else p) :: markDown ps wid

/-- scheduler.go HealthCheckLoop, body for one registered worker: an UP worker
whose heartbeat is more than 10 s old is marked DOWN and its assigned running
tasks are re-enqueued. -/
def tickStep (now : Nat) (acc : MasterState) (wid : String) : MasterState :=
  match alGet acc.workers wid with
  | some w =>
    if w.status = "UP" ∧ 10 < now - w.lastHeartbeat then
      requeueAux wid acc.assignments { acc with workers := markDown acc.workers wid }
    else acc
  | none => acc

/-- scheduler.go HealthCheckLoop, one tick: every UP worker whose heartbeat is
more than 10 s old is marked DOWN (it stays registered) and its running tasks
are re-enqueued with fresh ids. -/
def healthCheckTick (st : MasterState) (now : Nat) : MasterState :=
  (st.workers.map Prod.fst).foldl (tickStep now) st

/-- executor.go reportCompletion: the TaskResult composite literal sets only
ID, JobID, NodeID, Status, Result and ErrorMsg; the PartitionID field is
omitted, so it takes the Go zero value 0. -/
def mkWorkerTaskResult (task : Task) (status resPath errMsg : String) : TaskResult :=
  { id := task.id, jobId := task.jobId, nodeId := task.nodeId, partitionId := 0
    status := status, result := resPath, errorMsg := errMsg }

/-! Worker-side operators (operators.go and executor.go), pure over a modelled
file system `fs : String → Option (List String)`. -/

/-- Split a character list at the first ',' (strings.SplitN(s, ",", 2) core). -/
def splitOnceAux : List Char → Option (List Char × List Char)
  | [] => none
  | c :: cs =>
    if c = ',' then some ([], cs)
    else
      match splitOnceAux cs with
      | some r => some (c :: r.1, r.2)
      | none => none

/-- Go `strings.SplitN(s, ",", 2)`: two parts around the first comma, or the
whole string when it has no comma. -/
def splitN2 (s : String) : List String :=
  match splitOnceAux s.data with
  | some r => [String.mk r.1, String.mk r.2]
  | none => [s]

/-- Value of a decimal digit list (most significant first). -/
def digitsVal (cs : List Char) : Nat :=
  cs.foldl (fun a c => 10 * a + (c.toNat - 48)) 0

/-- Go `fmt.Sscanf(s, "%d", &val)`: skip leading spaces, parse an optional
sign and a digit run; on failure `val` keeps its zero value 0. -/
def sscanfInt (s : String) : Int :=
  let cs := s.data.dropWhile (fun c => c = ' ')
  match cs with
  | [] => 0
  | c :: rest =>
    if c = '-' then
      let ds := rest.takeWhile Char.isDigit
      if ds = [] then 0 else -(digitsVal ds : Int)
    else if c = '+' then
      let ds := rest.takeWhile Char.isDigit
      if ds = [] then 0 else (digitsVal ds : Int)
    else
      let ds := (c :: rest).takeWhile Char.isDigit
      if ds = [] then 0 else (digitsVal ds : Int)

/-- Digit character of `n < 10`. -/
def digitChar (n : Nat) : Char :=
  if n = 0 then '0' else if n = 1 then '1' else if n = 2 then '2'
  else if n = 3 then '3' else if n = 4 then '4' else if n = 5 then '5'
  else if n = 6 then '6' else if n = 7 then '7' else if n = 8 then '8'
  else if n = 9 then '9' else '*'

/-- Decimal digit list of a Nat, fuel-driven so that it evaluates by kernel
reduction (`fuel > n` always suffices). -/
def natDigitsFuel : Nat → Nat → List Char
  | 0, _ => []
  | fuel + 1, n =>
    if n < 10 then [digitChar n]
    else natDigitsFuel fuel (n / 10) ++ [digitChar (n % 10)]

/-- Decimal digit list of a Nat (Go `%d` for non-negative values). -/
def natDigits (n : Nat) : List Char := natDigitsFuel (n + 1) n

/-- Go `fmt.Sprintf` rendering of an int with `%d`. -/
def goIntStr (v : Int) : String :=
  if v < 0 then String.mk ('-' :: natDigits (-v).toNat) else String.mk (natDigits v.toNat)

/-- operators.go MapFunctions `to_json` body. -/
def toJsonUDF (s : String) : String :=
  match splitN2 s with
  | [a, b] => "\x7b\"key\": \"" ++ a.trim ++ "\", \"value\": \"" ++ b.trim ++ "\"\x7d"
  | _ => "\x7b\x7d"

/-- operators.go MapFunctions registry. -/
def mapFunctions (name : String) : Option (String → String) :=
  if name = "to_lower" then some String.toLower
  else if name = "to_json" then some toJsonUDF
  else none

/-- operators.go FilterFunctions registry (`long_words`: byte length > 4;
ASCII-equal to character length here). -/
def filterFunctions (name : String) : Option (String → Bool) :=
  if name = "long_words" then some (fun s => decide (4 < s.length)) else none

/-- operators.go FlatMapFunctions `tokenize`: strip ".,;?!-" then split into
whitespace-separated fields. -/
def tokenizeUDF (s : String) : List String :=
  let cleaned := String.mk (s.data.filter (fun c => ¬ (".,;?!-".data.contains c)))
  (cleaned.split Char.isWhitespace).filter (fun w => ¬ w = "")

/-- operators.go FlatMapFunctions registry. -/
def flatMapFunctions (name : String) : Option (String → List String) :=
  if name = "tokenize" then some tokenizeUDF else none

/-- A modelled shared file system: path to lines, `none` = cannot be opened. -/
def FS : Type := String → Option (List String)

/-- operators.go ReadCSV: copy the input line by line; a missing input is a
returned error (the only operator that fails on its input). -/
def readCSVOp (fs : FS) (inputPath : String) : Except String (List String) :=
  match fs inputPath with
  | some lines => Except.ok lines
  | none => Except.error ("open " ++ inputPath)

/-- operators.go Map / FlatMap / Filter share this input walk: a missing input
file is silently skipped (`file, _ := os.Open(in); if file == nil { continue }`). -/
def gatherLines (fs : FS) (inputs : List String) : List String :=
  inputs.foldl (fun acc inp =>
    match fs inp with
    | some lines => acc ++ lines
    | none => acc) []

/-- operators.go Map: unknown UDF is an error; inputs are gathered with
missing files skipped; one output line per input line. -/
def mapOp (fs : FS) (inputs : List String) (output fnName : String) :
    Except String (List String) :=
  match mapFunctions fnName with
  | none => Except.error ("fn map no encontrada: " ++ fnName)
  | some fn =>
    let _ := output
    Except.ok ((gatherLines fs inputs).map fn)

/-- operators.go FlatMap. -/
def flatMapOp (fs : FS) (inputs : List String) (output fnName : String) :
    Except String (List String) :=
  match flatMapFunctions fnName with
  | none => Except.error "fn flat_map no encontrada"
  | some fn =>
    let _ := output
    Except.ok ((gatherLines fs inputs).flatMap fn)

/-- operators.go Filter. -/
def filterOp (fs : FS) (inputs : List String) (output fnName : String) :
    Except String (List String) :=
  match filterFunctions fnName with
  | none => Except.error "fn filter no encontrada"
  | some fn =>
    let _ := output
    Except.ok ((gatherLines fs inputs).filter fn)

/-- Go `counts[k] += v` on a `map[string]int` (missing key reads as 0). -/
def addTo : List (String × Int) → String → Int → List (String × Int)
  | [], k, v => [(k, v)]
  | p :: ps, k, v => if p.1 = k then (p.1, p.2 + v) :: ps else p :: addTo ps k v

/-- Go `counts[k]++`. -/
def bump (m : List (String × Int)) (k : String) : List (String × Int) := addTo m k 1

/-- Render one aggregated output line `fmt.Sprintf("%s, %d\n", k, v)`. -/
def countLine (p : String × Int) : String := p.1 ++ ", " ++ goIntStr p.2

/-- operators.go ReduceByKey: in-memory count of each input line; missing
input files are skipped (`if err != nil { continue }`). -/
def reduceByKeyCounts (fs : FS) (inputs : List String) : List (String × Int) :=
  (gatherLines fs inputs).foldl bump []

/-- operators.go ReduceByKey output lines. -/
def reduceByKeyLines (fs : FS) (inputs : List String) : List String :=
  (reduceByKeyCounts fs inputs).map countLine

/-- executor.go dumpSpill: one line `fmt.Sprintf("%s,%d\n", k, v)` per entry. -/
def dumpLine (p : String × Int) : String := p.1 ++ "," ++ goIntStr p.2

/-- executor.go opReduceByKeyWithSpill phase 1 over the concatenated input
lines: bump the in-memory map; when its size reaches the threshold, dump it to
a fresh spill file and clear it. -/
def spillPhase1 (t : Nat) (lines : List String) :
    List (String × Int) × List (List (String × Int)) :=
  lines.foldl (fun st line =>
    let m := bump st.1 line
    if t ≤ m.length then ([], st.2 ++ [m]) else (m, st.2)) ([], [])

/-- executor.go opReduceByKeyWithSpill phase 2, one spill file: parse each
line with SplitN(",", 2); skip lines without a comma; `Sscanf("%d")` the
second part (0 on parse failure) and fold it into the map. -/
def mergeSpill (m : List (String × Int)) (lines : List String) : List (String × Int) :=
  lines.foldl (fun acc line =>
    match splitN2 line with
    | [a, b] => addTo acc a (sscanfInt b)
    | _ => acc) m

/-- executor.go opReduceByKeyWithSpill: phase 1, then fold every spill file
back in (reading exactly what dumpSpill wrote), then the final map. -/
def reduceWithSpillCounts (t : Nat) (fs : FS) (inputs : List String) :
    List (String × Int) :=
  let r := spillPhase1 t (gatherLines fs inputs)
  r.2.foldl (fun acc sp => mergeSpill acc (sp.map dumpLine)) r.1

/-- executor.go opReduceByKeyWithSpill final output lines. -/
def reduceWithSpillLines (t : Nat) (fs : FS) (inputs : List String) : List String :=
  (reduceWithSpillCounts t fs inputs).map countLine

/-- operators.go Join, pure core over the two files' lines: the left side is
materialized into a hash map keyed by the text before the first comma (later
duplicates overwrite); the right side is streamed; lines without a comma on
either side are skipped; matches emit `key, left_rest, right_rest`. -/
def joinLines (left right : List String) : List String :=
  let leftMap := left.foldl (fun m line =>
    match splitN2 line with
    | [a, b] => alSet m a b
    | _ => m) ([] : List (String × String))
  right.foldl (fun out line =>
    match splitN2 line with
    | [a, b] =>
      match alGet leftMap a with
      | some vl => out ++ [a ++ ", " ++ vl ++ ", " ++ b]
      | none => out
    | _ => out) []

/-- operators.go Join including the input opens: unlike Map, a missing left or
right file is a returned error. -/
def joinOp (fs : FS) (leftFile rightFile : String) : Except String (List String) :=
  match fs leftFile with
  | none => Except.error ("open " ++ leftFile)
  | some l =>
    match fs rightFile with
    | none => Except.error ("open " ++ rightFile)
    | some r => Except.ok (joinLines l r)

/-- executor.go `var SpillThreshold = 1000`. -/
def spillThreshold : Nat := 1000

/-- executor.go ExecuteTask operator dispatch (the output path
`<outputDir>/<jobID>_<nodeID>.txt` carries no control flow for the modelled
result; `task.Args[0]` is the singleton set by queueTask). -/
def runTaskOp (fs : FS) (task : Task) : Except String (List String) :=
  if task.op = "read_csv" ∨ task.op = "read_jsonl" then
    readCSVOp fs (task.args.getD 0 "")
  else if task.op = "map" then
    mapOp fs task.inputFiles "" task.fn
  else if task.op = "flat_map" then
    flatMapOp fs task.inputFiles "" task.fn
  -- note: ExecuteTask has no "filter" case; a filter task falls through to the
  -- default branch ("operacion desconocida")
  else if task.op = "reduce_by_key" then
    Except.ok (reduceWithSpillLines spillThreshold fs task.inputFiles)
  else if task.op = "join" then
    match task.inputFiles with
    | l :: r :: _ => joinOp fs l r
    | _ => Except.error "join requiere 2 inputs"
  else Except.error ("operacion desconocida: " ++ task.op)

/-- executor.go ExecuteTask: status COMPLETED/FAILED and error message from
the operator outcome. -/
def executeStatus (fs : FS) (task : Task) : String × String :=
  match runTaskOp fs task with
  | Except.ok _ => ("COMPLETED", "")
  | Except.error e => ("FAILED", e)

/-! Generic helper lemmas about the map encodings. -/

theorem alGet_alSet_self {β : Type} (l : List (String × β)) (k : String) (v : β) :
    alGet (alSet l k v) k = some v := by
  induction l with
  | nil => simp [alGet, alSet]
  | cons p ps ih =>
    by_cases h : p.1 = k
    · simp [alGet, alSet, h]
    · simp [alGet, alSet, h, ih]

theorem alGet_alSet_ne {β : Type} (l : List (String × β)) (k k2 : String) (v : β)
    (h : ¬ k2 = k) : alGet (alSet l k v) k2 = alGet l k2 := by
  have h2 : ¬ k = k2 := fun hh => h hh.symm
  induction l with
  | nil => simp [alGet, alSet, h2]
  | cons p ps ih =>
    by_cases hp : p.1 = k
    · have h3 : ¬ p.1 = k2 := by rw [hp]; exact h2
      simp [alGet, alSet, hp, h2, h3]
    · by_cases hp2 : p.1 = k2 <;> simp [alGet, alSet, hp, hp2, h, h2, ih]

theorem nlGet_nlDel_self {β : Type} (l : List (Nat × β)) (k : Nat) :
    nlGet (nlDel l k) k = none := by
  induction l with
  | nil => simp [nlGet, nlDel]
  | cons p ps ih =>
    by_cases h : p.1 = k
    · simpa [nlDel, h] using ih
    · simpa [nlDel, nlGet, h] using ih

theorem nlGet_nlDel_ne {β : Type} (l : List (Nat × β)) (k k2 : Nat) (h : ¬ k2 = k) :
    nlGet (nlDel l k) k2 = nlGet l k2 := by
  have h2 : ¬ k = k2 := fun hh => h hh.symm
  induction l with
  | nil => simp [nlGet, nlDel]
  | cons p ps ih =>
    by_cases hp : p.1 = k
    · have h3 : ¬ p.1 = k2 := by rw [hp]; exact h2
      simp [nlDel, nlGet, hp, h2, h3, ih]
    · by_cases hp2 : p.1 = k2 <;> simp [nlDel, nlGet, hp, hp2, h, h2, ih]

/-- Fold preservation: a fold whose steps all leave an observation unchanged
leaves it unchanged. -/
theorem foldl_pres {σ α β : Type} (P : σ → α) (f : σ → β → σ) (l : List β) (st : σ)
    (h : ∀ s b, P (f s b) = P s) : P (l.foldl f st) = P st := by
  induction l generalizing st with
  | nil => rfl
  | cons b bs ih => rw [List.foldl_cons, ih, h]

/-! Observation lemmas: which master operations leave which fields unchanged. -/

theorem queueTask_jobs (st : MasterState) (jobID : String) (node : DAGNode)
    (inputs : List String) (partID totalParts : Nat) :
    (queueTask st jobID node inputs partID totalParts).jobs = st.jobs := rfl

theorem queueTask_saved (st : MasterState) (jobID : String) (node : DAGNode)
    (inputs : List String) (partID totalParts : Nat) :
    (queueTask st jobID node inputs partID totalParts).saved = st.saved := rfl

theorem initJobProgress_jobs (st : MasterState) (job : Job) :
    (initJobProgress st job).jobs = st.jobs := by
  unfold initJobProgress
  dsimp only
  refine (foldl_pres (fun s : MasterState => s.jobs) _ _ _ ?_).trans rfl
  intro s node
  dsimp only
  refine (foldl_pres (fun s : MasterState => s.jobs) _ _ _ ?_).trans rfl
  intro s2 i
  rfl

theorem scheduleSourceTasks_jobs (st : MasterState) (job : Job) :
    (scheduleSourceTasks st job).jobs = st.jobs := by
  unfold scheduleSourceTasks
  dsimp only
  refine (foldl_pres (fun s : MasterState => s.jobs) _ _ _ ?_).trans rfl
  intro s node
  by_cases h : inDegree job.graph node.id = 0
  · rw [if_pos h]
    refine foldl_pres (fun s : MasterState => s.jobs) _ _ _ ?_
    intro s2 i
    rfl
  · rw [if_neg h]

theorem scheduleSourceTasks_saved (st : MasterState) (job : Job) :
    (scheduleSourceTasks st job).saved = st.saved := by
  unfold scheduleSourceTasks
  dsimp only
  refine (foldl_pres (fun s : MasterState => s.saved) _ _ _ ?_).trans rfl
  intro s node
  by_cases h : inDegree job.graph node.id = 0
  · rw [if_pos h]
    refine foldl_pres (fun s : MasterState => s.saved) _ _ _ ?_
    intro s2 i
    rfl
  · rw [if_neg h]

/-! Concrete fixtures used by the per-claim evidence. -/

/-- A two-partition single-source job: the setting where the dropped
PartitionID is observable. -/
def exNodeA : DAGNode :=
  { id := "a", op := "read_csv", fn := "", path := "data.txt", partitions := 0, key := "" }

def exReq2 : JobRequest :=
  { name := "p2", dag := { nodes := [exNodeA], edges := [] }, parallelism := 2 }

/-- Master state right after submitting the two-partition job "K". -/
def exSt2a : MasterState := submitJob newMaster exReq2 "K" 100

/-- The task the scheduler built for partition 1 of node "a". -/
def exTaskP1 : Task :=
  { id := 1, jobId := "K", nodeId := "a", op := "read_csv", fn := "", args := ["data.txt"]
    inputFiles := [], partitionId := 1, totalPartitions := 2, attempt := 1 }

/-- State with both partition tasks dispatched (queue drained into
RunningTasks/TaskAssignments, as SchedulerLoop does). -/
def exStRun : MasterState :=
  { exSt2a with
    queue := []
    runningTasks := fun k =>
      if k = 0 then some { exTaskP1 with id := 0, partitionId := 0 }
      else if k = 1 then some exTaskP1 else none
    assignments := [(0, "w1"), (1, "w1")] }

/-- State after the worker finishes partition 1 and reports through
reportCompletion (which drops the partition id). -/
def exStDone : MasterState :=
  completeTask exStRun (mkWorkerTaskResult exTaskP1 "COMPLETED" "out/K_a.txt" "") 107

/-- C1: the claim says the TaskResult the worker POSTs carries the task's
partition id and the master marks exactly that (job, node, partition) entry
COMPLETED.  The code is wrong: executor.go reportCompletion builds the
TaskResult without setting PartitionID, so it is always the zero value 0.
Finishing the partition-1 task of the two-partition job "K" reports
partition 0; the master marks partition 0 COMPLETED while partition 1 —
the one that actually ran — stays SCHEDULED, and the node stays RUNNING. -/
theorem reportCompletion_drops_partition_id :
    (mkWorkerTaskResult exTaskP1 "COMPLETED" "out/K_a.txt" "").partitionId = 0 ∧
    exTaskP1.partitionId = 1 ∧
    getPartitionStatus exStDone "K" "a" 0 = "COMPLETED" ∧
    getPartitionStatus exStDone "K" "a" 1 = "SCHEDULED" ∧
    getNodeStatus exStDone "K" "a" = "RUNNING" := by
  refine ⟨rfl, rfl, ?_, ?_, ?_⟩ <;> decide

theorem saveState_jobs (st : MasterState) : (saveState st).jobs = st.jobs := rfl

theorem submitJob_jobs (st : MasterState) (req : JobRequest) (jobID : String) (now : Nat) :
    (submitJob st req jobID now).jobs = alSet st.jobs jobID (submittedJob req jobID now) := by
  unfold submitJob
  dsimp only
  rw [scheduleSourceTasks_jobs, saveState_jobs, initJobProgress_jobs]

theorem submitJob_saved_jobs (st : MasterState) (req : JobRequest) (jobID : String)
    (now : Nat) :
    ∃ snap, (submitJob st req jobID now).saved = some snap ∧
      snap.jobs = alSet st.jobs jobID (submittedJob req jobID now) := by
  unfold submitJob
  dsimp only
  rw [scheduleSourceTasks_saved]
  refine ⟨_, rfl, ?_⟩
  show (snapshotOf _).jobs = _
  unfold snapshotOf
  dsimp only
  rw [initJobProgress_jobs]

/-- C6 amended: SubmitJobHandler performs no DAG validation.  Every decodable
job request — whatever its edges, dangling or cyclic — is stored with status
RUNNING and persisted. -/
theorem submitJob_never_rejects (st : MasterState) (req : JobRequest) (jobID : String)
    (now : Nat) :
    ∃ job, alGet (submitJob st req jobID now).jobs jobID = some job ∧
      job.status = "RUNNING" ∧ job.graph = req.dag ∧
      ∃ snap, (submitJob st req jobID now).saved = some snap ∧
        alGet snap.jobs jobID = some job := by
  obtain ⟨snap, hs, hjobs⟩ := submitJob_saved_jobs st req jobID now
  refine ⟨submittedJob req jobID now, ?_, rfl, rfl, snap, hs, ?_⟩
  · rw [submitJob_jobs]
    exact alGet_alSet_self _ _ _
  · rw [hjobs]
    exact alGet_alSet_self _ _ _

/-- A 2-node cyclic job definition. -/
def cycNode (n : String) : DAGNode :=
  { id := n, op := "map", fn := "to_lower", path := "", partitions := 0, key := "" }

def cycReq : JobRequest :=
  { name := "cyc", dag := { nodes := [cycNode "a", cycNode "b"]
                            edges := [("a", "b"), ("b", "a")] }, parallelism := 1 }

/-- Master state after submitting the cyclic job. -/
def cycSt : MasterState := submitJob newMaster cycReq "C" 50

/-- C6 counterexample: the claim says a cyclic job is rejected with a
job-rejected error and not persisted.  In the code the cyclic job "C" is
accepted: it is stored with status RUNNING, it is in the persisted snapshot,
and no task is ever enqueued for it (both nodes have in-degree 1). -/
theorem submit_accepts_cyclic_job :
    (alGet cycSt.jobs "C").map Job.status = some "RUNNING" ∧
    cycSt.saved.map (fun s => (alGet s.jobs "C").map Job.status)
      = some (some "RUNNING") ∧
    cycSt.queue = [] := by
  refine ⟨?_, ?_, ?_⟩ <;> decide

/-- File system whose only file holds one line that contains a comma. -/
def fsComma : FS := fun p => if p = "in.txt" then some ["a,b"] else none

/-- C7 counterexample: with SpillThreshold = 1 the single key "a,b" is spilled
as the line "a,b,1"; re-parsing splits at the FIRST comma, so the key comes
back as "a" and `Sscanf("%d", "b,1")` leaves the count 0.  The in-memory
ReduceByKey yields ("a,b", 1).  Spilling changes the output multiset. -/
theorem spill_corrupts_comma_keys :
    reduceWithSpillLines 1 fsComma ["in.txt"] = ["a, 0"] ∧
    reduceByKeyLines fsComma ["in.txt"] = ["a,b, 1"] ∧
    ¬ List.Perm (reduceWithSpillLines 1 fsComma ["in.txt"])
        (reduceByKeyLines fsComma ["in.txt"]) := by
  refine ⟨?_, ?_, ?_⟩ <;> decide

/-- A file system with no readable file at all. -/
def fsEmpty : FS := fun _ => none

/-- A map task over a missing input file. -/
def exMapTask : Task :=
  { id := 9, jobId := "J", nodeId := "m", op := "map", fn := "to_lower", args := [""]
    inputFiles := ["missing.txt"], partitionId := 0, totalPartitions := 1, attempt := 1 }

/-- C8 counterexample: the claim says a map task whose input file is missing
is surfaced as FAILED with error_msg.  In the code operators.Map silently
skips an input it cannot open, so the task COMPLETES with empty output. -/
theorem missing_input_not_surfaced_failed :
    executeStatus fsEmpty exMapTask = ("COMPLETED", "") ∧
    ¬ (executeStatus fsEmpty exMapTask).1 = "FAILED" := by
  refine ⟨?_, ?_⟩ <;> decide

/-- C8 amended: map, flat_map and reduce_by_key tasks never fail because of a
missing input file — unreadable inputs are silently skipped, for any file
system (in particular one where every input is missing).  They fail only on an
unknown UDF.  A filter task is not dispatched at all by ExecuteTask and always
fails as an unknown operation, independent of its inputs. -/
theorem worker_missing_inputs_silently_skipped (fs : FS) (task : Task) :
    (task.op = "map" → ∀ f, mapFunctions task.fn = some f →
        executeStatus fs task = ("COMPLETED", "")) ∧
    (task.op = "flat_map" → ∀ f, flatMapFunctions task.fn = some f →
        executeStatus fs task = ("COMPLETED", "")) ∧
    (task.op = "reduce_by_key" → executeStatus fs task = ("COMPLETED", "")) ∧
    (task.op = "filter" →
        executeStatus fs task = ("FAILED", "operacion desconocida: filter")) := by
  refine ⟨?_, ?_, ?_, ?_⟩
  · intro hop f hf
    simp [executeStatus, runTaskOp, hop, mapOp, hf]
  · intro hop f hf
    simp [executeStatus, runTaskOp, hop, flatMapOp, hf]
  · intro hop
    simp [executeStatus, runTaskOp, hop]
  · intro hop
    simp [executeStatus, runTaskOp, hop]

/-- A reduce task over missing inputs, concrete instance for the witness. -/
def exRedTask : Task :=
  { id := 10, jobId := "J", nodeId := "r", op := "reduce_by_key", fn := "", args := [""]
    inputFiles := ["gone1.txt", "gone2.txt"], partitionId := 0, totalPartitions := 1
    attempt := 1 }

/-- Witness for the C8 amended theorem at a concrete reduce task with two
missing inputs. -/
theorem worker_missing_inputs_silently_skipped_witness :
    executeStatus fsEmpty exRedTask = ("COMPLETED", "") :=
  (worker_missing_inputs_silently_skipped fsEmpty exRedTask).2.2.1 rfl

/-- C9: a FAILED TaskResult whose task id is not in the running-task table
bypasses the retry path entirely: the referenced job is immediately marked
FAILED with completed_at = now, nothing is re-enqueued, and the state is
persisted — regardless of how many attempts the job's tasks have used. -/
theorem stray_failed_report_fails_job (st : MasterState) (res : TaskResult) (job : Job)
    (now : Nat) (hF : res.status = "FAILED") (hT : st.runningTasks res.id = none)
    (hJ : alGet st.jobs res.jobId = some job) :
    alGet (completeTask st res now).jobs res.jobId
        = some { job with status := "FAILED", completed := now } ∧
    (completeTask st res now).queue = st.queue ∧
    (completeTask st res now).saved = some (snapshotOf (completeTask st res now)) := by
  unfold completeTask
  dsimp only
  rw [hF, if_pos rfl, hT]
  dsimp only
  unfold failJob
  dsimp only
  rw [hJ]
  dsimp only
  refine ⟨?_, rfl, rfl⟩
  exact alGet_alSet_self _ _ _

/-- Concrete stray-report fixture: job "J" exists, nothing is running. -/
def exStrayJob : Job :=
  { id := "J", name := "wc", status := "RUNNING"
    graph := { nodes := [exNodeA], edges := [] }, parallelism := 1
    submitted := 10, completed := 0 }

def exStraySt : MasterState := { newMaster with jobs := [("J", exStrayJob)] }

def exStrayRes : TaskResult :=
  { id := 42, jobId := "J", nodeId := "a", partitionId := 0, status := "FAILED"
    result := "", errorMsg := "boom" }

/-- Witness for C9 at a concrete stray FAILED report. -/
theorem stray_failed_report_fails_job_witness :
    alGet (completeTask exStraySt exStrayRes 99).jobs "J"
        = some { exStrayJob with status := "FAILED", completed := 99 } ∧
    (completeTask exStraySt exStrayRes 99).queue = [] :=
  ⟨(stray_failed_report_fails_job exStraySt exStrayRes exStrayJob 99 rfl rfl rfl).1,
   (stray_failed_report_fails_job exStraySt exStrayRes exStrayJob 99 rfl rfl rfl).2.1⟩

/-- C2: a FAILED report whose original task is still in the running-task
table follows the bounded-retry policy: below MaxRetries = 3 attempts the
task is re-enqueued once with attempt+1 and the fresh id `nextId` (distinct
from every id already issued) and the job is untouched; at 3 or more the
job is marked FAILED with completed_at = now and nothing is re-enqueued.
Either way the state is persisted, and the invariant that every queued task
has at most 3 attempts is preserved, so no task ever runs more than 3
attempts. -/
theorem failed_report_retry_policy (st : MasterState) (res : TaskResult) (t : Task)
    (now : Nat) (hF : res.status = "FAILED") (hT : st.runningTasks res.id = some t) :
    (t.attempt < maxRetries →
      (completeTask st res now).queue
          = st.queue ++ [{ t with attempt := t.attempt + 1, id := st.nextId }] ∧
      (res.id < st.nextId → ¬ st.nextId = res.id) ∧
      (completeTask st res now).jobs = st.jobs) ∧
    (maxRetries ≤ t.attempt →
      (completeTask st res now).queue = st.queue ∧
      ∀ job, alGet st.jobs res.jobId = some job →
        alGet (completeTask st res now).jobs res.jobId
            = some { job with status := "FAILED", completed := now }) ∧
    ((completeTask st res now).jobFailures res.jobId = st.jobFailures res.jobId + 1) ∧
    ((completeTask st res now).saved = some (snapshotOf (completeTask st res now))) ∧
    ((∀ u ∈ st.queue, u.attempt ≤ maxRetries) →
      ∀ u ∈ (completeTask st res now).queue, u.attempt ≤ maxRetries) := by
  unfold completeTask
  dsimp only
  rw [hF, if_pos rfl, hT]
  try dsimp only
  by_cases hA : t.attempt < maxRetries
  · rw [if_pos hA]
    try dsimp only
    refine ⟨fun _ => ⟨rfl, fun h hc => absurd hc.symm (Nat.ne_of_lt h), rfl⟩,
      fun h2 => absurd hA (Nat.not_lt.mpr h2), by simp [saveState], rfl, ?_⟩
    intro hq u hu
    rcases List.mem_append.mp hu with h | h
    · exact hq u h
    · rcases List.mem_singleton.mp h with rfl
      exact hA
  · rw [if_neg hA]
    unfold failJob
    try dsimp only
    cases hJ : alGet st.jobs res.jobId with
    | none =>
      try dsimp only
      refine ⟨fun h => absurd h hA, fun _ => ⟨rfl, ?_⟩, by simp [saveState], rfl,
        fun hq u hu => hq u hu⟩
      intro j hj
      cases hj
    | some job =>
      try dsimp only
      refine ⟨fun h => absurd h hA, fun _ => ⟨rfl, ?_⟩, by simp [saveState], rfl,
        fun hq u hu => hq u hu⟩
      intro j hj
      injection hj with h2
      subst h2
      exact alGet_alSet_self _ _ _

/-- A running map task at attempt 1, and its FAILED report. -/
def exFailTask : Task :=
  { id := 5, jobId := "J", nodeId := "a", op := "map", fn := "to_lower", args := [""]
    inputFiles := [], partitionId := 0, totalPartitions := 1, attempt := 1 }

def exFailSt : MasterState :=
  { newMaster with
    jobs := [("J", exStrayJob)]
    runningTasks := fun k => if k = 5 then some exFailTask else none
    nextId := 6 }

def exFailRes : TaskResult :=
  { id := 5, jobId := "J", nodeId := "a", partitionId := 0, status := "FAILED"
    result := "", errorMsg := "x" }

/-- Witness for C2 at a concrete attempt-1 failure: the task is re-enqueued
with attempt 2 under the fresh id 6, and the failure counter increments. -/
theorem failed_report_retry_policy_witness :
    (completeTask exFailSt exFailRes 12).queue
        = exFailSt.queue
            ++ [{ exFailTask with attempt := exFailTask.attempt + 1, id := exFailSt.nextId }] ∧
    (completeTask exFailSt exFailRes 12).jobFailures "J"
        = exFailSt.jobFailures "J" + 1 :=
  ⟨((failed_report_retry_policy exFailSt exFailRes exFailTask 12 rfl (by decide)).1
      (by decide)).1,
   (failed_report_retry_policy exFailSt exFailRes exFailTask 12 rfl (by decide)).2.2.1⟩

/-! Lemmas about the health-check requeue loop (claim C3). -/

theorem nlGet_mem {β : Type} (l : List (Nat × β)) (k : Nat) (v : β)
    (h : nlGet l k = some v) : (k, v) ∈ l := by
  induction l with
  | nil => simp [nlGet] at h
  | cons p ps ih =>
    by_cases hp : p.1 = k
    · rw [nlGet, if_pos hp] at h
      injection h with h2
      have he : (k, v) = p := by rw [← hp, ← h2]
      rw [he]
      exact List.mem_cons_self _ _
    · rw [nlGet, if_neg hp] at h
      exact List.mem_cons_of_mem _ (ih h)

theorem mem_nlGet_nodup {β : Type} (l : List (Nat × β)) (k : Nat) (v : β)
    (hnd : (l.map Prod.fst).Nodup) (h : (k, v) ∈ l) : nlGet l k = some v := by
  induction l with
  | nil => simp at h
  | cons p ps ih =>
    rcases List.mem_cons.mp h with h1 | h1
    · rw [← h1, nlGet, if_pos rfl]
    · have hk : k ∈ ps.map Prod.fst := List.mem_map.mpr ⟨(k, v), h1, rfl⟩
      have hp : ¬ p.1 = k := by
        intro hc
        exact (List.nodup_cons.mp hnd).1 (hc ▸ hk)
      rw [nlGet, if_neg hp]
      exact ih (List.nodup_cons.mp hnd).2 h1

theorem alGet_mem_keys {β : Type} (l : List (String × β)) (k : String) (v : β)
    (h : alGet l k = some v) : k ∈ l.map Prod.fst := by
  induction l with
  | nil => simp [alGet] at h
  | cons p ps ih =>
    by_cases hp : p.1 = k
    · exact List.mem_cons.mpr (Or.inl hp.symm)
    · rw [alGet, if_neg hp] at h
      exact List.mem_cons_of_mem _ (ih h)

theorem nlDel_sublist {β : Type} (l : List (Nat × β)) (k : Nat) :
    List.Sublist (nlDel l k) l := by
  induction l with
  | nil => simp [nlDel]
  | cons p ps ih =>
    by_cases hp : p.1 = k
    · rw [nlDel, if_pos hp]
      exact ih.cons _
    · rw [nlDel, if_neg hp]
      exact ih.cons₂ _

theorem nlDel_keys_nodup {β : Type} (l : List (Nat × β)) (k : Nat)
    (h : (l.map Prod.fst).Nodup) : ((nlDel l k).map Prod.fst).Nodup :=
  h.sublist ((nlDel_sublist l k).map Prod.fst)

theorem nlGet_nlDel_none {β : Type} (l : List (Nat × β)) (k k2 : Nat)
    (h : nlGet l k = none) : nlGet (nlDel l k2) k = none := by
  by_cases hk : k = k2
  · rw [hk]
    exact nlGet_nlDel_self l k2
  · rw [nlGet_nlDel_ne l k2 k hk]
    exact h

theorem markDown_alGet_self (ws : List (String × WorkerInfo)) (wid : String)
    (w : WorkerInfo) (h : alGet ws wid = some w) :
    alGet (markDown ws wid) wid = some { w with status := "DOWN" } := by
  induction ws with
  | nil => simp [alGet] at h
  | cons p ps ih =>
    by_cases hp : p.1 = wid
    · rw [alGet, if_pos hp] at h
      injection h with h2
      simp [markDown, alGet, hp, h2]
    · rw [alGet, if_neg hp] at h
      simp [markDown, alGet, hp, ih h]

theorem markDown_alGet_ne (ws : List (String × WorkerInfo)) (wid wid2 : String)
    (h : ¬ wid2 = wid) : alGet (markDown ws wid) wid2 = alGet ws wid2 := by
  have h2 : ¬ wid = wid2 := fun hc => h hc.symm
  induction ws with
  | nil => simp [markDown, alGet]
  | cons p ps ih =>
    by_cases hp : p.1 = wid
    · have hp2 : ¬ p.1 = wid2 := by rw [hp]; exact h2
      simp [markDown, alGet, hp, hp2, h, h2, ih]
    · by_cases hp2 : p.1 = wid2 <;> simp [markDown, alGet, hp, hp2, h, h2, ih]

theorem requeueAux_workers (wid : String) (l : List (Nat × String)) (st : MasterState) :
    (requeueAux wid l st).workers = st.workers := by
  induction l generalizing st with
  | nil => rfl
  | cons p rest ih =>
    by_cases hp : p.2 = wid
    · rw [requeueAux, if_pos hp]
      cases st.runningTasks p.1 <;> simp [ih]
    · rw [requeueAux, if_neg hp]
      exact ih st

theorem requeueAux_nextId_le (wid : String) (l : List (Nat × String)) (st : MasterState) :
    st.nextId ≤ (requeueAux wid l st).nextId := by
  induction l generalizing st with
  | nil => exact Nat.le_refl _
  | cons p rest ih =>
    by_cases hp : p.2 = wid
    · rw [requeueAux, if_pos hp]
      cases h : st.runningTasks p.1 with
      | none => exact ih st
      | some task =>
        dsimp only
        refine Nat.le_trans (Nat.le_succ _) ?_
        exact ih { st with
          queue := st.queue ++ [{ task with id := st.nextId }]
          assignments := nlDel st.assignments p.1
          runningTasks := fun k => if k = p.1 then none else st.runningTasks k
          nextId := st.nextId + 1 }
    · rw [requeueAux, if_neg hp]
      exact ih st

theorem requeueAux_queue_mem (wid : String) (l : List (Nat × String)) (st : MasterState)
    (u : Task) (h : u ∈ st.queue) : u ∈ (requeueAux wid l st).queue := by
  induction l generalizing st with
  | nil => exact h
  | cons p rest ih =>
    by_cases hp : p.2 = wid
    · rw [requeueAux, if_pos hp]
      cases hr : st.runningTasks p.1 with
      | none => exact ih st h
      | some task =>
        dsimp only
        exact ih _ (List.mem_append.mpr (Or.inl h))
    · rw [requeueAux, if_neg hp]
      exact ih st h

theorem requeueAux_running_none (wid : String) (l : List (Nat × String)) (st : MasterState)
    (k : Nat) (h : st.runningTasks k = none) :
    (requeueAux wid l st).runningTasks k = none := by
  induction l generalizing st with
  | nil => exact h
  | cons p rest ih =>
    by_cases hp : p.2 = wid
    · rw [requeueAux, if_pos hp]
      cases hr : st.runningTasks p.1 with
      | none => exact ih st h
      | some task =>
        dsimp only
        refine ih _ ?_
        by_cases hk : k = p.1 <;> simp [hk, h]
    · rw [requeueAux, if_neg hp]
      exact ih st h

theorem requeueAux_assign_none (wid : String) (l : List (Nat × String)) (st : MasterState)
    (k : Nat) (h : nlGet st.assignments k = none) :
    nlGet (requeueAux wid l st).assignments k = none := by
  induction l generalizing st with
  | nil => exact h
  | cons p rest ih =>
    by_cases hp : p.2 = wid
    · rw [requeueAux, if_pos hp]
      cases hr : st.runningTasks p.1 with
      | none => exact ih st h
      | some task =>
        dsimp only
        exact ih _ (nlGet_nlDel_none _ _ _ h)
    · rw [requeueAux, if_neg hp]
      exact ih st h

theorem requeueAux_assign_nodup (wid : String) (l : List (Nat × String)) (st : MasterState)
    (h : (st.assignments.map Prod.fst).Nodup) :
    ((requeueAux wid l st).assignments.map Prod.fst).Nodup := by
  induction l generalizing st with
  | nil => exact h
  | cons p rest ih =>
    by_cases hp : p.2 = wid
    · rw [requeueAux, if_pos hp]
      cases hr : st.runningTasks p.1 with
      | none => exact ih st h
      | some task =>
        dsimp only
        exact ih _ (nlDel_keys_nodup _ _ h)
    · rw [requeueAux, if_neg hp]
      exact ih st h

/-- Entries assigned to a different worker are untouched by the requeue loop. -/
theorem requeueAux_preserves_other (wid : String) (l : List (Nat × String))
    (st : MasterState) (k : Nat)
    (hl : ∀ v, (k, v) ∈ l → ¬ v = wid) :
    (requeueAux wid l st).runningTasks k = st.runningTasks k ∧
    nlGet (requeueAux wid l st).assignments k = nlGet st.assignments k := by
  induction l generalizing st with
  | nil => exact ⟨rfl, rfl⟩
  | cons p rest ih =>
    have hrest : ∀ v, (k, v) ∈ rest → ¬ v = wid :=
      fun v hv => hl v (List.mem_cons_of_mem _ hv)
    by_cases hp : p.2 = wid
    · rw [requeueAux, if_pos hp]
      have hk : ¬ p.1 = k := by
        intro hc
        exact hl p.2 (by rw [← hc]; exact List.mem_cons_self _ _) hp
      have hk2 : ¬ k = p.1 := fun hc => hk hc.symm
      cases hr : st.runningTasks p.1 with
      | none => exact ih st hrest
      | some task =>
        dsimp only
        obtain ⟨h1, h2⟩ := ih _ hrest
        refine ⟨?_, ?_⟩
        · rw [h1]
          simp [hk2]
        · rw [h2]
          exact nlGet_nlDel_ne _ _ _ hk2
    · rw [requeueAux, if_neg hp]
      exact ih st hrest

/-- The requeue loop on the dead worker's own entry: the running task and the
assignment disappear, and a copy of the task with a fresh id (at least the
current counter) is enqueued. -/
theorem requeueAux_spec (wid : String) (l : List (Nat × String)) (st : MasterState)
    (tID : Nat) (task : Task)
    (hmem : (tID, wid) ∈ l)
    (hnd : (l.map Prod.fst).Nodup)
    (hrun : st.runningTasks tID = some task) :
    (requeueAux wid l st).runningTasks tID = none ∧
    nlGet (requeueAux wid l st).assignments tID = none ∧
    ∃ t2 ∈ (requeueAux wid l st).queue,
      t2 = { task with id := t2.id } ∧ st.nextId ≤ t2.id := by
  induction l generalizing st with
  | nil => simp at hmem
  | cons p rest ih =>
    rcases List.mem_cons.mp hmem with h1 | h1
    · -- this entry is ours
      have hp2 : p.2 = wid := by rw [← h1]
      have hp1 : p.1 = tID := by rw [← h1]
      rw [requeueAux, if_pos hp2, hp1, hrun]
      dsimp only
      refine ⟨requeueAux_running_none _ _ _ _ (by simp),
        requeueAux_assign_none _ _ _ _ (nlGet_nlDel_self _ _), ?_⟩
      refine ⟨{ task with id := st.nextId }, ?_, rfl, Nat.le_refl _⟩
      exact requeueAux_queue_mem _ _ _ _
        (List.mem_append.mpr (Or.inr (List.mem_singleton.mpr rfl)))
    · -- ours is further down; this entry has a different key
      have hk : ¬ p.1 = tID := by
        intro hc
        have : tID ∈ rest.map Prod.fst := List.mem_map.mpr ⟨(tID, wid), h1, rfl⟩
        exact (List.nodup_cons.mp hnd).1 (hc ▸ this)
      have hnd2 := (List.nodup_cons.mp hnd).2
      have hk2 : ¬ tID = p.1 := fun hc => hk hc.symm
      by_cases hp : p.2 = wid
      · rw [requeueAux, if_pos hp]
        cases hr : st.runningTasks p.1 with
        | none => exact ih _ h1 hnd2 hrun
        | some task2 =>
          dsimp only
          obtain ⟨c1, c2, t2, ht2, he, hle⟩ :=
            ih { st with
                  queue := st.queue ++ [{ task2 with id := st.nextId }]
                  assignments := nlDel st.assignments p.1
                  runningTasks := fun k => if k = p.1 then none else st.runningTasks k
                  nextId := st.nextId + 1 } h1 hnd2 (by simpa [hk2] using hrun)
          exact ⟨c1, c2, t2, ht2, he, Nat.le_trans (Nat.le_succ _) hle⟩
      · rw [requeueAux, if_neg hp]
        exact ih _ h1 hnd2 hrun

/-! Per-step and per-fold preservation lemmas for the health-check tick. -/

theorem tickStep_running_none (now : Nat) (acc : MasterState) (wid : String) (k : Nat)
    (h : acc.runningTasks k = none) : (tickStep now acc wid).runningTasks k = none := by
  unfold tickStep
  cases alGet acc.workers wid with
  | none => exact h
  | some w =>
    dsimp only
    by_cases hc : w.status = "UP" ∧ 10 < now - w.lastHeartbeat
    · rw [if_pos hc]
      exact requeueAux_running_none _ _ _ _ h
    · rw [if_neg hc]
      exact h

theorem tickStep_assign_none (now : Nat) (acc : MasterState) (wid : String) (k : Nat)
    (h : nlGet acc.assignments k = none) :
    nlGet (tickStep now acc wid).assignments k = none := by
  unfold tickStep
  cases alGet acc.workers wid with
  | none => exact h
  | some w =>
    dsimp only
    by_cases hc : w.status = "UP" ∧ 10 < now - w.lastHeartbeat
    · rw [if_pos hc]
      exact requeueAux_assign_none _ _ _ _ h
    · rw [if_neg hc]
      exact h

theorem tickStep_queue_mem (now : Nat) (acc : MasterState) (wid : String) (u : Task)
    (h : u ∈ acc.queue) : u ∈ (tickStep now acc wid).queue := by
  unfold tickStep
  cases alGet acc.workers wid with
  | none => exact h
  | some w =>
    dsimp only
    by_cases hc : w.status = "UP" ∧ 10 < now - w.lastHeartbeat
    · rw [if_pos hc]
      exact requeueAux_queue_mem _ _ _ _ h
    · rw [if_neg hc]
      exact h

theorem tickStep_nextId_le (now : Nat) (acc : MasterState) (wid : String) :
    acc.nextId ≤ (tickStep now acc wid).nextId := by
  unfold tickStep
  cases alGet acc.workers wid with
  | none => exact Nat.le_refl _
  | some w =>
    dsimp only
    by_cases hc : w.status = "UP" ∧ 10 < now - w.lastHeartbeat
    · rw [if_pos hc]
      exact requeueAux_nextId_le wid acc.assignments
        { acc with workers := markDown acc.workers wid }
    · rw [if_neg hc]

theorem tickStep_workers_ne (now : Nat) (acc : MasterState) (wid wid2 : String)
    (h : ¬ wid2 = wid) :
    alGet (tickStep now acc wid).workers wid2 = alGet acc.workers wid2 := by
  unfold tickStep
  cases alGet acc.workers wid with
  | none => rfl
  | some w =>
    dsimp only
    by_cases hc : w.status = "UP" ∧ 10 < now - w.lastHeartbeat
    · rw [if_pos hc, requeueAux_workers]
      exact markDown_alGet_ne _ _ _ h
    · rw [if_neg hc]

theorem tickStep_assign_nodup (now : Nat) (acc : MasterState) (wid : String)
    (h : (acc.assignments.map Prod.fst).Nodup) :
    ((tickStep now acc wid).assignments.map Prod.fst).Nodup := by
  unfold tickStep
  cases alGet acc.workers wid with
  | none => exact h
  | some w =>
    dsimp only
    by_cases hc : w.status = "UP" ∧ 10 < now - w.lastHeartbeat
    · rw [if_pos hc]
      exact requeueAux_assign_nodup _ _ _ h
    · rw [if_neg hc]
      exact h

/-- Processing a different worker leaves an assignment to `wid` (unique by
nodup keys) and its running task untouched. -/
theorem tickStep_preserves_entry (now : Nat) (acc : MasterState) (wid2 wid : String)
    (tID : Nat) (task : Task)
    (hne : ¬ wid = wid2)
    (hand : (acc.assignments.map Prod.fst).Nodup)
    (hassigned : nlGet acc.assignments tID = some wid)
    (hrun : acc.runningTasks tID = some task) :
    nlGet (tickStep now acc wid2).assignments tID = some wid ∧
    (tickStep now acc wid2).runningTasks tID = some task := by
  unfold tickStep
  cases alGet acc.workers wid2 with
  | none => exact ⟨hassigned, hrun⟩
  | some w =>
    dsimp only
    by_cases hc : w.status = "UP" ∧ 10 < now - w.lastHeartbeat
    · rw [if_pos hc]
      have hl : ∀ v, (tID, v) ∈ acc.assignments → ¬ v = wid2 := by
        intro v hv
        have := mem_nlGet_nodup _ _ _ hand hv
        rw [hassigned] at this
        injection this with h2
        rw [← h2]
        exact hne
      obtain ⟨h1, h2⟩ := requeueAux_preserves_other wid2 acc.assignments
        { acc with workers := markDown acc.workers wid2 } tID hl
      exact ⟨by rw [h2]; exact hassigned, by rw [h1]; exact hrun⟩
    · rw [if_neg hc]
      exact ⟨hassigned, hrun⟩

theorem tickFold_running_none (now : Nat) (L : List String) (st : MasterState) (k : Nat)
    (h : st.runningTasks k = none) :
    ((L.foldl (tickStep now) st).runningTasks k) = none := by
  induction L generalizing st with
  | nil => exact h
  | cons a L ih => exact ih _ (tickStep_running_none now st a k h)

theorem tickFold_assign_none (now : Nat) (L : List String) (st : MasterState) (k : Nat)
    (h : nlGet st.assignments k = none) :
    nlGet (L.foldl (tickStep now) st).assignments k = none := by
  induction L generalizing st with
  | nil => exact h
  | cons a L ih => exact ih _ (tickStep_assign_none now st a k h)

theorem tickFold_queue_mem (now : Nat) (L : List String) (st : MasterState) (u : Task)
    (h : u ∈ st.queue) : u ∈ (L.foldl (tickStep now) st).queue := by
  induction L generalizing st with
  | nil => exact h
  | cons a L ih => exact ih _ (tickStep_queue_mem now st a u h)

theorem tickFold_workers_notin (now : Nat) (L : List String) (st : MasterState)
    (wid2 : String) (h : ¬ wid2 ∈ L) :
    alGet (L.foldl (tickStep now) st).workers wid2 = alGet st.workers wid2 := by
  induction L generalizing st with
  | nil => rfl
  | cons a L ih =>
    have h1 : ¬ wid2 = a := fun hc => h (hc ▸ List.mem_cons_self a L)
    have h2 : ¬ wid2 ∈ L := fun hc => h (List.mem_cons_of_mem a hc)
    rw [List.foldl_cons, ih _ h2, tickStep_workers_ne now st a wid2 h1]

/-- The health-check fold over any duplicate-free list of worker ids that
contains the stale worker: the worker's registry entry goes DOWN and stays
registered, its assigned running task disappears from both tables, and a copy
of the task with a fresh id (at least the pre-tick counter) is enqueued. -/
theorem tickFold_spec (now : Nat) (wid : String) (w : WorkerInfo) (tID : Nat)
    (task : Task) :
    ∀ (L : List String) (st : MasterState),
      wid ∈ L → L.Nodup →
      (st.assignments.map Prod.fst).Nodup →
      alGet st.workers wid = some w →
      w.status = "UP" → 10 < now - w.lastHeartbeat →
      nlGet st.assignments tID = some wid →
      st.runningTasks tID = some task →
      alGet (L.foldl (tickStep now) st).workers wid = some { w with status := "DOWN" } ∧
      (L.foldl (tickStep now) st).runningTasks tID = none ∧
      nlGet (L.foldl (tickStep now) st).assignments tID = none ∧
      ∃ t2 ∈ (L.foldl (tickStep now) st).queue,
        t2 = { task with id := t2.id } ∧ st.nextId ≤ t2.id := by
  intro L
  induction L with
  | nil =>
    intro st hmemL
    simp at hmemL
  | cons a L ih =>
    intro st hmemL hLnd hand hw hup hstale hassigned hrun
    rw [List.foldl_cons]
    rcases List.mem_cons.mp hmemL with h1 | h1
    · -- the head of the list is our stale worker
      subst h1
      have hstep : tickStep now st wid
          = requeueAux wid st.assignments { st with workers := markDown st.workers wid } := by
        unfold tickStep
        rw [hw]
        exact if_pos ⟨hup, hstale⟩
      have hnotin : ¬ wid ∈ L := (List.nodup_cons.mp hLnd).1
      obtain ⟨c1, c2, t2, ht2, he, hle⟩ :=
        requeueAux_spec wid st.assignments
          { st with workers := markDown st.workers wid } tID task
          (nlGet_mem _ _ _ hassigned) hand hrun
      rw [hstep]
      refine ⟨?_, tickFold_running_none _ _ _ _ c1, tickFold_assign_none _ _ _ _ c2,
        t2, tickFold_queue_mem _ _ _ _ ht2, he, hle⟩
      rw [tickFold_workers_notin _ _ _ _ hnotin, requeueAux_workers]
      exact markDown_alGet_self _ _ _ hw
    · -- our worker is further down the list; the head is a different worker
      have hne : ¬ wid = a := by
        intro hc
        exact (List.nodup_cons.mp hLnd).1 (hc ▸ h1)
      obtain ⟨p1, p2⟩ := tickStep_preserves_entry now st a wid tID task hne hand hassigned hrun
      have hw2 : alGet (tickStep now st a).workers wid = some w := by
        rw [tickStep_workers_ne now st a wid hne]
        exact hw
      obtain ⟨c1, c2, c3, t2, ht2, he, hle⟩ :=
        ih (tickStep now st a) h1 (List.nodup_cons.mp hLnd).2
          (tickStep_assign_nodup now st a hand) hw2 hup hstale p1 p2
      exact ⟨c1, c2, c3, t2, ht2, he, Nat.le_trans (tickStep_nextId_le now st a) hle⟩

/-- C3: when the health check finds an UP worker whose heartbeat is more than
10 seconds old, it marks that worker DOWN while keeping it registered; every
running task assigned to it is removed from the assignment and running-task
tables and re-enqueued under a fresh task id, so afterwards no task previously
assigned to the dead worker is still recorded under its old task id.
Hypotheses: map keys are duplicate-free (Go maps), and every issued task id is
below the fresh-id counter. -/
theorem health_check_orphan_recovery (st : MasterState) (now : Nat) (wid : String)
    (w : WorkerInfo) (tID : Nat) (task : Task)
    (hwkeys : (st.workers.map Prod.fst).Nodup)
    (hakeys : (st.assignments.map Prod.fst).Nodup)
    (hw : alGet st.workers wid = some w)
    (hup : w.status = "UP")
    (hstale : 10 < now - w.lastHeartbeat)
    (hassigned : nlGet st.assignments tID = some wid)
    (hrun : st.runningTasks tID = some task)
    (hfresh : tID < st.nextId) :
    alGet (healthCheckTick st now).workers wid = some { w with status := "DOWN" } ∧
    (healthCheckTick st now).runningTasks tID = none ∧
    nlGet (healthCheckTick st now).assignments tID = none ∧
    ∃ t2 ∈ (healthCheckTick st now).queue,
      t2 = { task with id := t2.id } ∧ ¬ t2.id = tID := by
  obtain ⟨c1, c2, c3, t2, ht2, he, hle⟩ :=
    tickFold_spec now wid w tID task (st.workers.map Prod.fst) st
      (alGet_mem_keys _ _ _ hw) hwkeys hakeys hw hup hstale hassigned hrun
  refine ⟨c1, c2, c3, t2, ht2, he, ?_⟩
  intro hc
  rw [hc] at hle
  exact Nat.not_lt.mpr hle hfresh

/-- Concrete fixture for the C3 witness: one dead worker "w1" with the
running task `exTaskP1` (id 1) assigned, one live worker "w2". -/
def exHcSt : MasterState :=
  { newMaster with
    workers := [("w1", { id := "w1", url := "http://localhost:9001", lastHeartbeat := 0
                         status := "UP" }),
                ("w2", { id := "w2", url := "http://localhost:9002", lastHeartbeat := 14
                         status := "UP" })]
    assignments := [(1, "w1")]
    runningTasks := fun k => if k = 1 then some exTaskP1 else none
    nextId := 2 }

/-- Witness for C3 at time 15: worker "w1" (last heartbeat 0) is 15 s stale. -/
theorem health_check_orphan_recovery_witness :
    alGet (healthCheckTick exHcSt 15).workers "w1"
        = some { id := "w1", url := "http://localhost:9001", lastHeartbeat := 0
                 status := "DOWN" } ∧
    (healthCheckTick exHcSt 15).runningTasks 1 = none ∧
    nlGet (healthCheckTick exHcSt 15).assignments 1 = none ∧
    ∃ t2 ∈ (healthCheckTick exHcSt 15).queue,
      t2 = { exTaskP1 with id := t2.id } ∧ ¬ t2.id = 1 :=
  health_check_orphan_recovery exHcSt 15 "w1"
    { id := "w1", url := "http://localhost:9001", lastHeartbeat := 0, status := "UP" }
    1 exTaskP1 (by decide) (by decide) (by decide) rfl (by decide) (by decide)
    (by decide) (by decide)

/-! Status-table lemmas (used by C5 and C4). -/

theorem getNodeStatus_setNodeStatus_self (st : MasterState) (j n s : String) :
    getNodeStatus (setNodeStatus st j n s) j n = s := by
  simp [getNodeStatus, setNodeStatus]

theorem getNodeStatus_setNodeStatus_completed (st : MasterState) (j n j2 n2 : String)
    (h : getNodeStatus st j n = "COMPLETED") :
    getNodeStatus (setNodeStatus st j2 n2 "COMPLETED") j n = "COMPLETED" := by
  unfold getNodeStatus at h
  unfold getNodeStatus setNodeStatus
  dsimp only
  by_cases hj : j = j2
  · subst hj
    rw [if_pos rfl]
    by_cases hn : n = n2
    · subst hn
      simp
    · dsimp only
      rw [if_neg hn]
      revert h
      cases hjp : st.jobProgress j with
      | none =>
        intro h
        dsimp only at h
        simp at h
      | some jm =>
        intro h
        dsimp only at h
        simpa using h
  · rw [if_neg hj]
    exact h

theorem getNodeStatus_setPartitionStatus (st : MasterState) (j2 n2 : String) (i : Nat)
    (s j n : String) :
    getNodeStatus (setPartitionStatus st j2 n2 i s) j n = getNodeStatus st j n := rfl

theorem getPartitionStatus_setNodeStatus (st : MasterState) (j2 n2 s j n : String)
    (i : Nat) :
    getPartitionStatus (setNodeStatus st j2 n2 s) j n i = getPartitionStatus st j n i := rfl

theorem getPartitionStatus_setPartitionStatus_self (st : MasterState) (j n : String)
    (i : Nat) (s : String) :
    getPartitionStatus (setPartitionStatus st j n i s) j n i = s := by
  simp [getPartitionStatus, setPartitionStatus]

theorem getPartitionStatus_setPartitionStatus_completed (st : MasterState)
    (j n : String) (i : Nat) (j2 n2 : String) (i2 : Nat)
    (h : getPartitionStatus st j n i = "COMPLETED") :
    getPartitionStatus (setPartitionStatus st j2 n2 i2 "COMPLETED") j n i = "COMPLETED" := by
  unfold getPartitionStatus at h
  unfold getPartitionStatus setPartitionStatus
  dsimp only
  by_cases hj : j = j2
  · subst hj
    rw [if_pos rfl]
    by_cases hn : n = n2
    · subst hn
      dsimp only
      rw [if_pos rfl]
      by_cases hi : i = i2
      · subst hi
        simp
      · dsimp only
        rw [if_neg hi]
        revert h
        cases hjp : st.taskProgress j with
        | none =>
          intro h
          dsimp only at h
          simp at h
        | some jm =>
          intro h
          dsimp only at h
          revert h
          cases hnm : jm n with
          | none =>
            intro h
            dsimp only at h
            simp at h
          | some nm =>
            intro h
            dsimp only at h
            simpa [hnm] using h
    · dsimp only
      rw [if_neg hn]
      revert h
      cases hjp : st.taskProgress j with
      | none =>
        intro h
        dsimp only at h
        simp at h
      | some jm =>
        intro h
        dsimp only at h
        simpa using h
  · rw [if_neg hj]
    exact h

/-- The partition-marking inner fold never touches node statuses. -/
theorem partFold_keeps_node (jid nid : String) (l : List Nat) (a : MasterState)
    (j n : String) (h : getNodeStatus a j n = "COMPLETED") :
    getNodeStatus (l.foldl (fun b i => setPartitionStatus b jid nid i "COMPLETED") a) j n
      = "COMPLETED" := by
  induction l generalizing a with
  | nil => exact h
  | cons x xs ih =>
    rw [List.foldl_cons]
    exact ih _ (by rw [getNodeStatus_setPartitionStatus]; exact h)

theorem partFold_keeps_part (jid nid : String) (l : List Nat) (a : MasterState)
    (j n : String) (i : Nat) (h : getPartitionStatus a j n i = "COMPLETED") :
    getPartitionStatus (l.foldl (fun b i2 => setPartitionStatus b jid nid i2 "COMPLETED") a) j n i
      = "COMPLETED" := by
  induction l generalizing a with
  | nil => exact h
  | cons x xs ih =>
    rw [List.foldl_cons]
    exact ih _ (getPartitionStatus_setPartitionStatus_completed _ _ _ _ _ _ _ h)

theorem partFold_sets (jid nid : String) (l : List Nat) (a : MasterState) (i : Nat)
    (hmem : i ∈ l) :
    getPartitionStatus (l.foldl (fun b i2 => setPartitionStatus b jid nid i2 "COMPLETED") a)
      jid nid i = "COMPLETED" := by
  induction l generalizing a with
  | nil => simp at hmem
  | cons x xs ih =>
    rw [List.foldl_cons]
    rcases List.mem_cons.mp hmem with h1 | h1
    · subst h1
      exact partFold_keeps_part _ _ _ _ _ _ _
        (getPartitionStatus_setPartitionStatus_self _ _ _ _ _)
    · exact ih _ h1

/-- The node-marking outer fold (one step per node: set the node COMPLETED,
then all partitions 0..p-1). -/
theorem nodeFold_keeps_node (jid : String) (p : Nat) (l : List DAGNode) (a : MasterState)
    (j n : String) (h : getNodeStatus a j n = "COMPLETED") :
    getNodeStatus
      (l.foldl (fun a2 nd =>
        (List.range p).foldl (fun b i => setPartitionStatus b jid nd.id i "COMPLETED")
          (setNodeStatus a2 jid nd.id "COMPLETED")) a) j n = "COMPLETED" := by
  induction l generalizing a with
  | nil => exact h
  | cons nd nds ih =>
    rw [List.foldl_cons]
    exact ih _ (partFold_keeps_node _ _ _ _ _ _
      (getNodeStatus_setNodeStatus_completed _ _ _ _ _ h))

theorem nodeFold_keeps_part (jid : String) (p : Nat) (l : List DAGNode) (a : MasterState)
    (j n : String) (i : Nat) (h : getPartitionStatus a j n i = "COMPLETED") :
    getPartitionStatus
      (l.foldl (fun a2 nd =>
        (List.range p).foldl (fun b i2 => setPartitionStatus b jid nd.id i2 "COMPLETED")
          (setNodeStatus a2 jid nd.id "COMPLETED")) a) j n i = "COMPLETED" := by
  induction l generalizing a with
  | nil => exact h
  | cons nd nds ih =>
    rw [List.foldl_cons]
    refine ih _ (partFold_keeps_part _ _ _ _ _ _ _ ?_)
    rw [getPartitionStatus_setNodeStatus]
    exact h

theorem nodeFold_spec (jid : String) (p : Nat) (l : List DAGNode) (a : MasterState) :
    ∀ node ∈ l,
      getNodeStatus
        (l.foldl (fun a2 nd =>
          (List.range p).foldl (fun b i => setPartitionStatus b jid nd.id i "COMPLETED")
            (setNodeStatus a2 jid nd.id "COMPLETED")) a) jid node.id = "COMPLETED" ∧
      ∀ i < p,
        getPartitionStatus
          (l.foldl (fun a2 nd =>
            (List.range p).foldl (fun b i2 => setPartitionStatus b jid nd.id i2 "COMPLETED")
              (setNodeStatus a2 jid nd.id "COMPLETED")) a) jid node.id i = "COMPLETED" := by
  induction l generalizing a with
  | nil => intro node h; simp at h
  | cons n0 rest ih =>
    intro node hmem
    rw [List.foldl_cons]
    rcases List.mem_cons.mp hmem with h1 | h1
    · subst h1
      refine ⟨nodeFold_keeps_node _ _ _ _ _ _
          (partFold_keeps_node _ _ _ _ _ _ (getNodeStatus_setNodeStatus_self _ _ _ _)),
        fun i hi => nodeFold_keeps_part _ _ _ _ _ _ _
          (partFold_sets _ _ _ _ _ (List.mem_range.mpr hi))⟩
    · exact ih _ node h1

/-- markJobComplete marks every node and partition 0..p-1 of the job
COMPLETED. -/
theorem markJobComplete_spec (job : Job) (st : MasterState) :
    ∀ node ∈ job.graph.nodes,
      getNodeStatus (markJobComplete st job) job.id node.id = "COMPLETED" ∧
      ∀ i < effP job,
        getPartitionStatus (markJobComplete st job) job.id node.id i = "COMPLETED" :=
  nodeFold_spec job.id (effP job) job.graph.nodes st

/-- markJobComplete only writes "COMPLETED", so COMPLETED statuses anywhere
survive it. -/
theorem markJobComplete_keeps_completed (job : Job) (st : MasterState) (j n : String) :
    (getNodeStatus st j n = "COMPLETED" →
      getNodeStatus (markJobComplete st job) j n = "COMPLETED") ∧
    (∀ i, getPartitionStatus st j n i = "COMPLETED" →
      getPartitionStatus (markJobComplete st job) j n i = "COMPLETED") :=
  ⟨fun h => nodeFold_keeps_node job.id (effP job) job.graph.nodes st j n h,
   fun i h => nodeFold_keeps_part job.id (effP job) job.graph.nodes st j n i h⟩

/-! Field-preservation and keyed-preservation lemmas for LoadState (C5). -/

theorem initJobProgress_jobOutputs (st : MasterState) (job : Job) :
    (initJobProgress st job).jobOutputs = st.jobOutputs := by
  unfold initJobProgress
  dsimp only
  refine (foldl_pres (fun s : MasterState => s.jobOutputs) _ _ _ ?_).trans rfl
  intro s node
  dsimp only
  refine (foldl_pres (fun s : MasterState => s.jobOutputs) _ _ _ ?_).trans rfl
  intro s2 i
  rfl

theorem initJobProgress_jobFailures (st : MasterState) (job : Job) :
    (initJobProgress st job).jobFailures = st.jobFailures := by
  unfold initJobProgress
  dsimp only
  refine (foldl_pres (fun s : MasterState => s.jobFailures) _ _ _ ?_).trans rfl
  intro s node
  dsimp only
  refine (foldl_pres (fun s : MasterState => s.jobFailures) _ _ _ ?_).trans rfl
  intro s2 i
  rfl

theorem markJobComplete_jobs (st : MasterState) (job : Job) :
    (markJobComplete st job).jobs = st.jobs := by
  unfold markJobComplete
  refine (foldl_pres (fun s : MasterState => s.jobs) _ _ _ ?_).trans rfl
  intro s node
  dsimp only
  refine (foldl_pres (fun s : MasterState => s.jobs) _ _ _ ?_).trans rfl
  intro s2 i
  rfl

theorem markJobComplete_jobOutputs (st : MasterState) (job : Job) :
    (markJobComplete st job).jobOutputs = st.jobOutputs := by
  unfold markJobComplete
  refine (foldl_pres (fun s : MasterState => s.jobOutputs) _ _ _ ?_).trans rfl
  intro s node
  dsimp only
  refine (foldl_pres (fun s : MasterState => s.jobOutputs) _ _ _ ?_).trans rfl
  intro s2 i
  rfl

theorem markJobComplete_jobFailures (st : MasterState) (job : Job) :
    (markJobComplete st job).jobFailures = st.jobFailures := by
  unfold markJobComplete
  refine (foldl_pres (fun s : MasterState => s.jobFailures) _ _ _ ?_).trans rfl
  intro s node
  dsimp only
  refine (foldl_pres (fun s : MasterState => s.jobFailures) _ _ _ ?_).trans rfl
  intro s2 i
  rfl

theorem loadStep_jobs (acc : MasterState) (e : String × Job) :
    (loadStep acc e).jobs = acc.jobs := by
  unfold loadStep
  dsimp only
  by_cases h : e.2.status = "COMPLETED"
  · rw [if_pos h, markJobComplete_jobs, initJobProgress_jobs]
  · rw [if_neg h, initJobProgress_jobs]

theorem loadStep_jobOutputs (acc : MasterState) (e : String × Job) :
    (loadStep acc e).jobOutputs = acc.jobOutputs := by
  unfold loadStep
  dsimp only
  by_cases h : e.2.status = "COMPLETED"
  · rw [if_pos h, markJobComplete_jobOutputs, initJobProgress_jobOutputs]
  · rw [if_neg h, initJobProgress_jobOutputs]

theorem loadStep_jobFailures (acc : MasterState) (e : String × Job) :
    (loadStep acc e).jobFailures = acc.jobFailures := by
  unfold loadStep
  dsimp only
  by_cases h : e.2.status = "COMPLETED"
  · rw [if_pos h, markJobComplete_jobFailures, initJobProgress_jobFailures]
  · rw [if_neg h, initJobProgress_jobFailures]

/-- Rebuilding progress for a different job does not change this job's
progress tables. -/
theorem initJobProgress_progress_ne (st : MasterState) (job : Job) (jid : String)
    (hne : ¬ jid = job.id) :
    (initJobProgress st job).jobProgress jid = st.jobProgress jid ∧
    (initJobProgress st job).taskProgress jid = st.taskProgress jid := by
  unfold initJobProgress
  dsimp only
  constructor
  · refine (foldl_pres (fun s : MasterState => s.jobProgress jid) _ _ _ ?_).trans ?_
    · intro s node
      dsimp only
      refine (foldl_pres (fun s : MasterState => s.jobProgress jid) _ _ _ ?_).trans ?_
      · intro s2 i
        rfl
      · simp [setNodeStatus, hne]
    · simp [hne]
  · refine (foldl_pres (fun s : MasterState => s.taskProgress jid) _ _ _ ?_).trans ?_
    · intro s node
      dsimp only
      refine (foldl_pres (fun s : MasterState => s.taskProgress jid) _ _ _ ?_).trans ?_
      · intro s2 i
        simp [setPartitionStatus, hne]
      · simp [setNodeStatus, hne]
    · simp [hne]

theorem loadStep_keeps (jid : String) (e : String × Job) (acc : MasterState)
    (hne : ¬ jid = e.2.id) (n : String) (i : Nat)
    (h1 : getNodeStatus acc jid n = "COMPLETED")
    (h2 : getPartitionStatus acc jid n i = "COMPLETED") :
    getNodeStatus (loadStep acc e) jid n = "COMPLETED" ∧
    getPartitionStatus (loadStep acc e) jid n i = "COMPLETED" := by
  have hinit1 : getNodeStatus (initJobProgress acc e.2) jid n = "COMPLETED" := by
    unfold getNodeStatus
    rw [(initJobProgress_progress_ne acc e.2 jid hne).1]
    exact h1
  have hinit2 : getPartitionStatus (initJobProgress acc e.2) jid n i = "COMPLETED" := by
    unfold getPartitionStatus
    rw [(initJobProgress_progress_ne acc e.2 jid hne).2]
    exact h2
  unfold loadStep
  dsimp only
  by_cases h : e.2.status = "COMPLETED"
  · rw [if_pos h]
    exact ⟨(markJobComplete_keeps_completed e.2 _ jid n).1 hinit1,
      (markJobComplete_keeps_completed e.2 _ jid n).2 i hinit2⟩
  · rw [if_neg h]
    exact ⟨hinit1, hinit2⟩

theorem loadFold_keeps (jid : String) (l : List (String × Job)) (st : MasterState)
    (hne : ∀ p ∈ l, ¬ jid = p.2.id) (n : String) (i : Nat)
    (h1 : getNodeStatus st jid n = "COMPLETED")
    (h2 : getPartitionStatus st jid n i = "COMPLETED") :
    getNodeStatus (l.foldl loadStep st) jid n = "COMPLETED" ∧
    getPartitionStatus (l.foldl loadStep st) jid n i = "COMPLETED" := by
  induction l generalizing st with
  | nil => exact ⟨h1, h2⟩
  | cons e rest ih =>
    rw [List.foldl_cons]
    obtain ⟨k1, k2⟩ := loadStep_keeps jid e st (hne e (List.mem_cons_self e rest)) n i h1 h2
    exact ih _ (fun p hp => hne p (List.mem_cons_of_mem e hp)) k1 k2

theorem loadFold_jobs (l : List (String × Job)) (st : MasterState) :
    (l.foldl loadStep st).jobs = st.jobs := by
  induction l generalizing st with
  | nil => rfl
  | cons e rest ih => rw [List.foldl_cons, ih, loadStep_jobs]

theorem loadFold_jobOutputs (l : List (String × Job)) (st : MasterState) :
    (l.foldl loadStep st).jobOutputs = st.jobOutputs := by
  induction l generalizing st with
  | nil => rfl
  | cons e rest ih => rw [List.foldl_cons, ih, loadStep_jobOutputs]

theorem loadFold_jobFailures (l : List (String × Job)) (st : MasterState) :
    (l.foldl loadStep st).jobFailures = st.jobFailures := by
  induction l generalizing st with
  | nil => rfl
  | cons e rest ih => rw [List.foldl_cons, ih, loadStep_jobFailures]

theorem effP_pos (job : Job) : 0 < effP job := by
  unfold effP
  split <;> omega

theorem alGet_split {β : Type} (l : List (String × β)) (k : String) (v : β)
    (h : alGet l k = some v) : ∃ l1 l2, l = l1 ++ (k, v) :: l2 := by
  induction l with
  | nil => simp [alGet] at h
  | cons p ps ih =>
    by_cases hp : p.1 = k
    · rw [alGet, if_pos hp] at h
      injection h with h2
      refine ⟨[], ps, ?_⟩
      rw [List.nil_append]
      have : (k, v) = p := by rw [← hp, ← h2]
      rw [this]
    · rw [alGet, if_neg hp] at h
      obtain ⟨l1, l2, he⟩ := ih h
      exact ⟨p :: l1, l2, by rw [he, List.cons_append]⟩

theorem sinkOutputs_congr (st1 st2 : MasterState) (jid : String)
    (hj : st1.jobs = st2.jobs) (ho : st1.jobOutputs = st2.jobOutputs) :
    sinkOutputs st1 jid = sinkOutputs st2 jid := by
  unfold sinkOutputs
  rw [hj, ho]

/-- C5: persistence round-trip.  Loading the snapshot SaveState wrote on a
fresh master restores the same job records (hence job statuses), the same
per-node output paths and hence the same sink output paths, and the same
failure counters; and for every loaded COMPLETED job every node and every
partition 0..P-1 is marked COMPLETED.  Hypotheses: the Go map cannot hold
duplicate keys and each job record is stored under its own id. -/
theorem snapshot_round_trip (m : MasterState)
    (hnd : (m.jobs.map Prod.fst).Nodup)
    (hids : ∀ p ∈ m.jobs, p.2.id = p.1) :
    (loadState newMaster (snapshotOf m)).jobs = m.jobs ∧
    (loadState newMaster (snapshotOf m)).jobOutputs = m.jobOutputs ∧
    (loadState newMaster (snapshotOf m)).jobFailures = m.jobFailures ∧
    (∀ jid, sinkOutputs (loadState newMaster (snapshotOf m)) jid = sinkOutputs m jid) ∧
    (∀ jid job, alGet m.jobs jid = some job → job.status = "COMPLETED" →
      ∀ node ∈ job.graph.nodes,
        getNodeStatus (loadState newMaster (snapshotOf m)) jid node.id = "COMPLETED" ∧
        ∀ i < effP job,
          getPartitionStatus (loadState newMaster (snapshotOf m)) jid node.id i
            = "COMPLETED") := by
  have hjobs : (loadState newMaster (snapshotOf m)).jobs = m.jobs := by
    unfold loadState
    dsimp only
    rw [loadFold_jobs]
    rfl
  have houts : (loadState newMaster (snapshotOf m)).jobOutputs = m.jobOutputs := by
    unfold loadState
    dsimp only
    rw [loadFold_jobOutputs]
    rfl
  have hfail : (loadState newMaster (snapshotOf m)).jobFailures = m.jobFailures := by
    unfold loadState
    dsimp only
    rw [loadFold_jobFailures]
    rfl
  refine ⟨hjobs, houts, hfail, fun jid => sinkOutputs_congr _ _ _ hjobs houts, ?_⟩
  intro jid job hget hcomp node hnode
  obtain ⟨l1, l2, hsplit⟩ := alGet_split m.jobs jid job hget
  have hjid : job.id = jid := hids (jid, job) (by rw [hsplit]; simp)
  -- keys of l2 do not contain jid
  have hkeys : (m.jobs.map Prod.fst).Nodup := hnd
  have hl2 : ∀ p ∈ l2, ¬ jid = p.2.id := by
    intro p hp hc
    have hk : p.2.id = p.1 := hids p (by rw [hsplit]; simp [hp])
    have hmem : jid ∈ l2.map Prod.fst := by
      rw [hc, hk]
      exact List.mem_map.mpr ⟨p, hp, rfl⟩
    have : ((jid, job) :: l2).map Prod.fst |>.Nodup := by
      have := hkeys
      rw [hsplit, List.map_append] at this
      exact (List.Nodup.of_append_right this)
    rw [List.map_cons, List.nodup_cons] at this
    exact this.1 hmem
  -- unfold the load fold along the split
  unfold loadState
  dsimp only [snapshotOf]
  rw [hsplit, List.foldl_append, List.foldl_cons]
  -- the middle step marks our job COMPLETED everywhere
  have hmark : ∀ (acc : MasterState),
      getNodeStatus (loadStep acc (jid, job)) jid node.id = "COMPLETED" ∧
      ∀ i < effP job,
        getPartitionStatus (loadStep acc (jid, job)) jid node.id i = "COMPLETED" := by
    intro acc
    unfold loadStep
    dsimp only
    rw [if_pos hcomp]
    obtain ⟨s1, s2⟩ := markJobComplete_spec job (initJobProgress acc job) node hnode
    rw [hjid] at s1 s2
    exact ⟨s1, s2⟩
  obtain ⟨s1, s2⟩ := hmark (l1.foldl loadStep _)
  refine ⟨?_, fun i hi => ?_⟩
  · exact (loadFold_keeps jid l2 _ hl2 node.id 0 s1 (s2 0 (effP_pos job))).1
  · exact (loadFold_keeps jid l2 _ hl2 node.id i s1 (s2 i hi)).2

/-- A finished two-partition job for the C5 witness. -/
def exDoneJob : Job :=
  { id := "D", name := "done", status := "COMPLETED"
    graph := { nodes := [exNodeA], edges := [] }, parallelism := 2
    submitted := 1, completed := 9 }

def exDoneSt : MasterState :=
  { newMaster with
    jobs := [("D", exDoneJob)]
    jobOutputs := fun j =>
      if j = "D" then some (fun n => if n = "a" then some "out/D_a.txt" else none) else none
    jobFailures := fun j => if j = "D" then 1 else 0 }

/-- Witness for C5: restoring the snapshot of a master holding one COMPLETED
two-partition job brings back the same jobs table and marks node "a" and both
its partitions COMPLETED. -/
theorem snapshot_round_trip_witness :
    (loadState newMaster (snapshotOf exDoneSt)).jobs = exDoneSt.jobs ∧
    getNodeStatus (loadState newMaster (snapshotOf exDoneSt)) "D" "a" = "COMPLETED" ∧
    getPartitionStatus (loadState newMaster (snapshotOf exDoneSt)) "D" "a" 0 = "COMPLETED" ∧
    getPartitionStatus (loadState newMaster (snapshotOf exDoneSt)) "D" "a" 1 = "COMPLETED" := by
  have h := snapshot_round_trip exDoneSt (by decide) (by decide)
  have hc := h.2.2.2.2 "D" exDoneJob (by decide) rfl exNodeA (by decide)
  exact ⟨h.1, hc.1, hc.2 0 (by decide), hc.2 1 (by decide)⟩

/-! Gating characterization (claim C4). -/

/-- Full case analysis of a partition-status write as seen from any key:
either it is the written key, or it reads unchanged, or (same job and node,
different partition, node map previously missing) the read degrades from the
"PENDING" default to the zero value "". -/
theorem setPart_get_cases (st : MasterState) (j2 n2 : String) (i2 : Nat) (s : String)
    (j n : String) (i : Nat) :
    (j = j2 ∧ n = n2 ∧ i = i2 ∧
      getPartitionStatus (setPartitionStatus st j2 n2 i2 s) j n i = s) ∨
    (getPartitionStatus (setPartitionStatus st j2 n2 i2 s) j n i
      = getPartitionStatus st j n i) ∨
    (getPartitionStatus (setPartitionStatus st j2 n2 i2 s) j n i = "" ∧
      getPartitionStatus st j n i = "PENDING") := by
  unfold getPartitionStatus setPartitionStatus
  dsimp only
  by_cases hj : j = j2
  · subst hj
    rw [if_pos rfl]
    by_cases hn : n = n2
    · subst hn
      dsimp only
      rw [if_pos rfl]
      by_cases hi : i = i2
      · subst hi
        left
        exact ⟨rfl, rfl, rfl, by simp⟩
      · dsimp only
        rw [if_neg hi]
        cases hjp : st.taskProgress j with
        | none =>
          right; right
          simp
        | some jm =>
          cases hnm : jm n with
          | none =>
            right; right
            simp [hnm]
          | some nm =>
            right; left
            simp [hnm]
    · dsimp only
      rw [if_neg hn]
      cases hjp : st.taskProgress j with
      | none =>
        right; left
        simp
      | some jm =>
        right; left
        simp
  · rw [if_neg hj]
    right; left
    rfl

/-- How partition statuses may differ between the pre-gating state and a
mid-gating state: unchanged, freshly SCHEDULED (was PENDING), or degraded to
"" (was PENDING). -/
def statusEvolves (st acc : MasterState) : Prop :=
  ∀ j n i, getPartitionStatus acc j n i = getPartitionStatus st j n i ∨
    (getPartitionStatus acc j n i = "SCHEDULED" ∧
      getPartitionStatus st j n i = "PENDING") ∨
    (getPartitionStatus acc j n i = "" ∧ getPartitionStatus st j n i = "PENDING")

theorem statusEvolves_refl (st : MasterState) : statusEvolves st st :=
  fun _ _ _ => Or.inl rfl

theorem statusEvolves_pending (st acc : MasterState) (hinv : statusEvolves st acc)
    (j n : String) (i : Nat) (h : getPartitionStatus acc j n i = "PENDING") :
    getPartitionStatus st j n i = "PENDING" := by
  rcases hinv j n i with h1 | ⟨h1, h2⟩ | ⟨h1, h2⟩
  · rw [← h1]; exact h
  · rw [h] at h1; exact absurd h1 (by decide)
  · rw [h] at h1; exact absurd h1 (by decide)

theorem statusEvolves_completed (st acc : MasterState) (hinv : statusEvolves st acc)
    (j n : String) (i : Nat) :
    getPartitionStatus acc j n i = "COMPLETED" ↔
      getPartitionStatus st j n i = "COMPLETED" := by
  rcases hinv j n i with h1 | ⟨h1, h2⟩ | ⟨h1, h2⟩
  · rw [h1]
  · rw [h1, h2]
    constructor <;> intro hc <;> exact absurd hc (by decide)
  · rw [h1, h2]
    constructor <;> intro hc <;> exact absurd hc (by decide)

/-- setNodeStatus does not touch jobPartitionOutputs or taskProgress. -/
theorem queueTask_jpo (st : MasterState) (jobID : String) (node : DAGNode)
    (inputs : List String) (partID totalParts : Nat) :
    (queueTask st jobID node inputs partID totalParts).jobPartitionOutputs
      = st.jobPartitionOutputs := rfl

/-- After queueTask, statuses evolve correctly relative to any base state,
provided the queued partition read PENDING. -/
theorem queueTask_statusEvolves (st acc : MasterState) (job : Job) (node : DAGNode)
    (inputs : List String) (i p : Nat)
    (hinv : statusEvolves st acc)
    (hpend : getPartitionStatus acc job.id node.id i = "PENDING") :
    statusEvolves st (queueTask acc job.id node inputs i p) := by
  intro j n i2
  have hq : getPartitionStatus (queueTask acc job.id node inputs i p) j n i2
      = getPartitionStatus (setPartitionStatus acc job.id node.id i "SCHEDULED") j n i2 := rfl
  rw [hq]
  rcases setPart_get_cases acc job.id node.id i "SCHEDULED" j n i2 with
    ⟨hj, hn, hi, hv⟩ | hv | ⟨hv, hold⟩
  · subst hj; subst hn; subst hi
    right; left
    exact ⟨hv, statusEvolves_pending st acc hinv _ _ _ hpend⟩
  · rw [hv]
    exact hinv j n i2
  · right; right
    exact ⟨hv, statusEvolves_pending st acc hinv _ _ _ hold⟩

/-- What the inner edge scan computes, in terms of the scanned state. -/
theorem scanParents_spec (acc : MasterState) (jid : String) (i : Nat) (nid : String)
    (edges : List (String × String))
    (hout : ∀ e ∈ edges, e.2 = nid →
      getPartitionStatus acc jid e.1 i = "COMPLETED" →
      ∃ nm, jpoLookup acc jid e.1 = some nm) :
    ((scanParents acc jid i nid edges).2.1 = true ↔ ∃ e ∈ edges, e.2 = nid) ∧
    ((scanParents acc jid i nid edges).1 = true ↔
      ∀ e ∈ edges, e.2 = nid → getPartitionStatus acc jid e.1 i = "COMPLETED") ∧
    ((scanParents acc jid i nid edges).1 = true →
      (scanParents acc jid i nid edges).2.2
        = (edges.filter (fun e => e.2 = nid)).map (fun e => recordedOutput acc jid e.1 i)) := by
  induction edges with
  | nil =>
    refine ⟨by simp [scanParents], by simp [scanParents], fun _ => by simp [scanParents]⟩
  | cons e rest ih =>
    have ihrest := ih (fun e2 he2 => hout e2 (List.mem_cons_of_mem _ he2))
    by_cases hp : e.2 = nid
    · by_cases hc : getPartitionStatus acc jid e.1 i = "COMPLETED"
      · have hs : scanParents acc jid i nid (e :: rest)
            = ((scanParents acc jid i nid rest).1, true,
               (match jpoLookup acc jid e.1 with
                | some nm => [(nm i).getD ""]
                | none => []) ++ (scanParents acc jid i nid rest).2.2) := by
          rw [scanParents, if_pos hp, if_neg (by rw [hc]; simp)]
        rw [hs]
        refine ⟨by simp [hp], ?_, ?_⟩
        · rw [ihrest.2.1]
          constructor
          · intro hall e2 he2 hp2
            rcases List.mem_cons.mp he2 with h1 | h1
            · rw [h1]; exact hc
            · exact hall e2 h1 hp2
          · intro hall e2 he2 hp2
            exact hall e2 (List.mem_cons_of_mem _ he2) hp2
        · intro hdone
          obtain ⟨nm, hnm⟩ := hout e (List.mem_cons_self _ _) hp hc
          have hdone2 : (scanParents acc jid i nid rest).1 = true := hdone
          rw [List.filter_cons_of_pos (by simp [hp]), List.map_cons,
            ihrest.2.2 hdone2]
          simp [recordedOutput, hnm]
      · have hs : scanParents acc jid i nid (e :: rest) = (false, true, []) := by
          rw [scanParents, if_pos hp, if_pos (by simpa using hc)]
        rw [hs]
        refine ⟨by simp [hp], ?_, by intro h; cases h⟩
        simp only [Bool.false_eq_true, false_iff]
        intro hall
        exact hc (hall e (List.mem_cons_self _ _) hp)
    · have hs : scanParents acc jid i nid (e :: rest) = scanParents acc jid i nid rest := by
        rw [scanParents, if_neg hp]
      rw [hs]
      refine ⟨?_, ?_, ?_⟩
      · rw [ihrest.1]
        constructor
        · intro ⟨e2, he2, hp2⟩
          exact ⟨e2, List.mem_cons_of_mem _ he2, hp2⟩
        · intro ⟨e2, he2, hp2⟩
          rcases List.mem_cons.mp he2 with h1 | h1
          · rw [h1] at hp2; exact absurd hp2 hp
          · exact ⟨e2, h1, hp2⟩
      · rw [ihrest.2.1]
        constructor
        · intro hall e2 he2 hp2
          rcases List.mem_cons.mp he2 with h1 | h1
          · rw [h1] at hp2; exact absurd hp2 hp
          · exact hall e2 h1 hp2
        · intro hall e2 he2 hp2
          exact hall e2 (List.mem_cons_of_mem _ he2) hp2
      · intro hdone
        rw [List.filter_cons_of_neg (by simp [hp])]
        exact ihrest.2.2 hdone

theorem jpoLookup_congr (st acc : MasterState) (jid nid : String)
    (h : acc.jobPartitionOutputs = st.jobPartitionOutputs) :
    jpoLookup acc jid nid = jpoLookup st jid nid := by
  unfold jpoLookup
  rw [h]

theorem recordedOutput_congr (st acc : MasterState) (jid nid : String) (i : Nat)
    (h : acc.jobPartitionOutputs = st.jobPartitionOutputs) :
    recordedOutput acc jid nid i = recordedOutput st jid nid i := by
  unfold recordedOutput
  rw [jpoLookup_congr st acc jid nid h]

/-- What it means for a task to be a legitimate product of DAG gating on
state `st`: it belongs to some node of the job and some partition i < P, the
partition was still PENDING, the node has at least one parent edge, partition
i of every parent is COMPLETED, and the input files are exactly the parents'
partition-i recorded outputs in edge-declaration order. -/
def gatedOk (st : MasterState) (job : Job) (t : Task) : Prop :=
  ∃ node ∈ job.graph.nodes, ∃ i, i < effP job ∧
    t.jobId = job.id ∧ t.nodeId = node.id ∧ t.op = node.op ∧ t.fn = node.fn ∧
    t.args = [node.path] ∧ t.partitionId = i ∧ t.totalPartitions = effP job ∧
    t.attempt = 1 ∧
    getPartitionStatus st job.id node.id i = "PENDING" ∧
    (∃ e ∈ job.graph.edges, e.2 = node.id) ∧
    (∀ e ∈ job.graph.edges, e.2 = node.id →
      getPartitionStatus st job.id e.1 i = "COMPLETED") ∧
    t.inputFiles = (job.graph.edges.filter (fun e => e.2 = node.id)).map
        (fun e => recordedOutput st job.id e.1 i)

/-- One gating step (one node, one partition) preserves the gating
invariant. -/
theorem gateStep_inv (st : MasterState) (job : Job) (node : DAGNode) (i : Nat)
    (hnode : node ∈ job.graph.nodes) (hi : i < effP job)
    (hout : ∀ e ∈ job.graph.edges, ∀ k, k < effP job →
      getPartitionStatus st job.id e.1 k = "COMPLETED" →
      (jpoLookup st job.id e.1).isSome = true)
    (acc : MasterState)
    (hinv1 : acc.jobPartitionOutputs = st.jobPartitionOutputs)
    (hinv2 : statusEvolves st acc)
    (hinv3 : ∀ t ∈ acc.queue, t ∈ st.queue ∨ gatedOk st job t) :
    let acc2 := if ¬ getPartitionStatus acc job.id node.id i = "PENDING" then acc
      else
        let r := scanParents acc job.id i node.id job.graph.edges
        if r.2.1 && r.1 then queueTask acc job.id node r.2.2 i (effP job) else acc
    acc2.jobPartitionOutputs = st.jobPartitionOutputs ∧
    statusEvolves st acc2 ∧
    ∀ t ∈ acc2.queue, t ∈ st.queue ∨ gatedOk st job t := by
  dsimp only
  by_cases hpend : getPartitionStatus acc job.id node.id i = "PENDING"
  · rw [if_neg (by simpa using hpend)]
    have houtAcc : ∀ e ∈ job.graph.edges, e.2 = node.id →
        getPartitionStatus acc job.id e.1 i = "COMPLETED" →
        ∃ nm, jpoLookup acc job.id e.1 = some nm := by
      intro e he hp hc
      have hst : getPartitionStatus st job.id e.1 i = "COMPLETED" :=
        (statusEvolves_completed st acc hinv2 _ _ _).mp hc
      have := hout e he i hi hst
      rw [← jpoLookup_congr st acc job.id e.1 hinv1] at this
      exact Option.isSome_iff_exists.mp this
    obtain ⟨hsHas, hsDone, hsFiles⟩ :=
      scanParents_spec acc job.id i node.id job.graph.edges houtAcc
    by_cases hgo : (scanParents acc job.id i node.id job.graph.edges).2.1
        && (scanParents acc job.id i node.id job.graph.edges).1
    · rw [if_pos hgo]
      obtain ⟨hHas, hDone⟩ := Bool.and_eq_true_iff.mp hgo
      refine ⟨hinv1, queueTask_statusEvolves st acc job node _ i (effP job) hinv2 hpend, ?_⟩
      intro t ht
      have hq : (queueTask acc job.id node
          (scanParents acc job.id i node.id job.graph.edges).2.2 i (effP job)).queue
          = acc.queue ++ [{ id := acc.nextId, jobId := job.id, nodeId := node.id
                            op := node.op, fn := node.fn, args := [node.path]
                            inputFiles := (scanParents acc job.id i node.id job.graph.edges).2.2
                            partitionId := i, totalPartitions := effP job
                            attempt := 1 }] := rfl
      rw [hq] at ht
      rcases List.mem_append.mp ht with h1 | h1
      · exact hinv3 t h1
      · rcases List.mem_singleton.mp h1 with rfl
        right
        refine ⟨node, hnode, i, hi, rfl, rfl, rfl, rfl, rfl, rfl, rfl, rfl,
          statusEvolves_pending st acc hinv2 _ _ _ hpend, ?_, ?_, ?_⟩
        · exact hsHas.mp hHas
        · intro e he hp
          exact (statusEvolves_completed st acc hinv2 _ _ _).mp
            (hsDone.mp hDone e he hp)
        · show (scanParents acc job.id i node.id job.graph.edges).2.2 = _
          rw [hsFiles hDone]
          have : (fun e : String × String => recordedOutput acc job.id e.1 i)
              = (fun e : String × String => recordedOutput st job.id e.1 i) :=
            funext fun e => recordedOutput_congr st acc job.id e.1 i hinv1
          rw [this]
    · rw [if_neg hgo]
      exact ⟨hinv1, hinv2, hinv3⟩
  · rw [if_pos (by simpa using hpend)]
    exact ⟨hinv1, hinv2, hinv3⟩

/-- The per-node partition loop preserves the gating invariant. -/
theorem gatePartFold_inv (st : MasterState) (job : Job) (node : DAGNode)
    (hnode : node ∈ job.graph.nodes)
    (hout : ∀ e ∈ job.graph.edges, ∀ k, k < effP job →
      getPartitionStatus st job.id e.1 k = "COMPLETED" →
      (jpoLookup st job.id e.1).isSome = true)
    (l : List Nat) (hl : ∀ i ∈ l, i < effP job)
    (acc : MasterState)
    (hinv1 : acc.jobPartitionOutputs = st.jobPartitionOutputs)
    (hinv2 : statusEvolves st acc)
    (hinv3 : ∀ t ∈ acc.queue, t ∈ st.queue ∨ gatedOk st job t) :
    (l.foldl (fun acc2 i =>
      if ¬ getPartitionStatus acc2 job.id node.id i = "PENDING" then acc2
      else
        let r := scanParents acc2 job.id i node.id job.graph.edges
        if r.2.1 && r.1 then queueTask acc2 job.id node r.2.2 i (effP job) else acc2)
      acc).jobPartitionOutputs = st.jobPartitionOutputs ∧
    statusEvolves st (l.foldl (fun acc2 i =>
      if ¬ getPartitionStatus acc2 job.id node.id i = "PENDING" then acc2
      else
        let r := scanParents acc2 job.id i node.id job.graph.edges
        if r.2.1 && r.1 then queueTask acc2 job.id node r.2.2 i (effP job) else acc2)
      acc) ∧
    ∀ t ∈ (l.foldl (fun acc2 i =>
      if ¬ getPartitionStatus acc2 job.id node.id i = "PENDING" then acc2
      else
        let r := scanParents acc2 job.id i node.id job.graph.edges
        if r.2.1 && r.1 then queueTask acc2 job.id node r.2.2 i (effP job) else acc2)
      acc).queue, t ∈ st.queue ∨ gatedOk st job t := by
  induction l generalizing acc with
  | nil => exact ⟨hinv1, hinv2, hinv3⟩
  | cons x xs ih =>
    rw [List.foldl_cons]
    obtain ⟨k1, k2, k3⟩ := gateStep_inv st job node x hnode
      (hl x (List.mem_cons_self x xs)) hout acc hinv1 hinv2 hinv3
    exact ih (fun i hi2 => hl i (List.mem_cons_of_mem x hi2)) _ k1 k2 k3

/-- C4: DAG gating characterization.  Any task that
CheckAndScheduleDependents adds to the queue (it was not there before) is a
gated task: for some node of the job and some partition i < P, the partition
was still PENDING, the node has at least one parent edge, partition i of
every parent was already COMPLETED before the sweep, and the task's
input_files are exactly the parents' recorded partition-i output paths in
edge-declaration order.  In particular a child partition is never enqueued
by gating before all its parent partitions are COMPLETED.  Hypothesis: every
COMPLETED parent partition has a recorded node-level output map (which
CompleteTaskHandler guarantees whenever it marks a partition COMPLETED). -/
theorem gating_only_when_parents_complete (st : MasterState) (job : Job) (t : Task)
    (hout : ∀ e ∈ job.graph.edges, ∀ k, k < effP job →
      getPartitionStatus st job.id e.1 k = "COMPLETED" →
      (jpoLookup st job.id e.1).isSome = true)
    (ht : t ∈ (checkAndScheduleDependents st job).queue)
    (hnew : ¬ t ∈ st.queue) :
    gatedOk st job t := by
  unfold checkAndScheduleDependents at ht
  dsimp only at ht
  have main : ∀ (l : List DAGNode), (∀ n ∈ l, n ∈ job.graph.nodes) →
      ∀ (acc : MasterState),
      acc.jobPartitionOutputs = st.jobPartitionOutputs →
      statusEvolves st acc →
      (∀ u ∈ acc.queue, u ∈ st.queue ∨ gatedOk st job u) →
      ∀ u ∈ (l.foldl (fun acc3 node =>
        (List.range (effP job)).foldl (fun acc2 i =>
          if ¬ getPartitionStatus acc2 job.id node.id i = "PENDING" then acc2
          else
            let r := scanParents acc2 job.id i node.id job.graph.edges
            if r.2.1 && r.1 then queueTask acc2 job.id node r.2.2 i (effP job) else acc2)
          acc3) acc).queue, u ∈ st.queue ∨ gatedOk st job u := by
    intro l
    induction l with
    | nil =>
      intro _ acc _ _ h3 u hu
      exact h3 u hu
    | cons n0 rest ih =>
      intro hsub acc h1 h2 h3
      rw [List.foldl_cons]
      obtain ⟨k1, k2, k3⟩ := gatePartFold_inv st job n0
        (hsub n0 (List.mem_cons_self n0 rest)) hout (List.range (effP job))
        (fun i hi2 => List.mem_range.mp hi2) acc h1 h2 h3
      exact ih (fun n hn => hsub n (List.mem_cons_of_mem n0 hn)) _ k1 k2 k3
  rcases main job.graph.nodes (fun n hn => hn) st rfl (statusEvolves_refl st)
      (fun u hu => Or.inl hu) t ht with h | h
  · exact absurd h hnew
  · exact h

/-- Gating fixture: job "G" with edge a → b, parallelism 1, partition 0 of a
COMPLETED with a recorded output, partition 0 of b still PENDING. -/
def exGateNodeB : DAGNode :=
  { id := "b", op := "reduce_by_key", fn := "", path := "", partitions := 0, key := "" }

def exGateJob : Job :=
  { id := "G", name := "g", status := "RUNNING"
    graph := { nodes := [exNodeA, exGateNodeB], edges := [("a", "b")] }
    parallelism := 1, submitted := 0, completed := 0 }

def exGateSt : MasterState :=
  { newMaster with
    jobs := [("G", exGateJob)]
    taskProgress := fun j =>
      if j = "G" then
        some (fun n =>
          if n = "a" then some (fun i => if i = 0 then some "COMPLETED" else none)
          else if n = "b" then some (fun i => if i = 0 then some "PENDING" else none)
          else none)
      else none
    jobPartitionOutputs := fun j =>
      if j = "G" then
        some (fun n =>
          if n = "a" then some (fun i => if i = 0 then some "out/G_a.txt" else none)
          else none)
      else none
    nextId := 7 }

/-- The task gating enqueues for partition 0 of b. -/
def exGateTask : Task :=
  { id := 7, jobId := "G", nodeId := "b", op := "reduce_by_key", fn := "", args := [""]
    inputFiles := ["out/G_a.txt"], partitionId := 0, totalPartitions := 1, attempt := 1 }

/-- Witness for C4: in the fixture, gating enqueues exactly the child task
with input the parent's recorded partition-0 output. -/
theorem gating_only_when_parents_complete_witness :
    exGateTask ∈ (checkAndScheduleDependents exGateSt exGateJob).queue ∧
    gatedOk exGateSt exGateJob exGateTask :=
  ⟨by decide,
   gating_only_when_parents_complete exGateSt exGateJob exGateTask
     (by decide) (by decide) (by decide)⟩

theorem digitChar_spec (d : Nat) (hd : d < 10) :
    (digitChar d).isDigit = true ∧ (digitChar d).toNat - 48 = d ∧
    ¬ digitChar d = ' ' ∧ ¬ digitChar d = '-' ∧ ¬ digitChar d = '+' := by
  interval_cases d <;> exact ⟨by decide, by decide, by decide, by decide, by decide⟩

theorem natDigitsFuel_congr : ∀ (f1 f2 n : Nat), n < f1 → n < f2 →
    natDigitsFuel f1 n = natDigitsFuel f2 n := by
  intro f1
  induction f1 with
  | zero => intro f2 n h1 _; omega
  | succ f ih =>
    intro f2 n h1 h2
    cases f2 with
    | zero => omega
    | succ f2a =>
      rw [natDigitsFuel, natDigitsFuel]
      by_cases h10 : n < 10
      · rw [if_pos h10, if_pos h10]
      · rw [if_neg h10, if_neg h10]
        have hdiv : n / 10 < n := Nat.div_lt_self (by omega) (by omega)
        rw [ih f2a (n / 10) (by omega) (by omega)]

theorem natDigits_eq (n : Nat) :
    natDigits n = if n < 10 then [digitChar n]
      else natDigits (n / 10) ++ [digitChar (n % 10)] := by
  unfold natDigits
  rw [natDigitsFuel]
  by_cases h10 : n < 10
  · rw [if_pos h10, if_pos h10]
  · rw [if_neg h10, if_neg h10]
    have hdiv : n / 10 < n := Nat.div_lt_self (by omega) (by omega)
    rw [natDigitsFuel_congr n (n / 10 + 1) (n / 10) (by omega) (by omega)]

theorem digitsVal_append1 (cs : List Char) (c : Char) :
    digitsVal (cs ++ [c]) = 10 * digitsVal cs + (c.toNat - 48) := by
  simp [digitsVal]

theorem natDigits_spec (n : Nat) : ¬ natDigits n = [] ∧
    (∀ c ∈ natDigits n, c.isDigit = true) ∧ digitsVal (natDigits n) = n := by
  induction n using Nat.strong_induction_on with
  | _ n ih =>
    rw [natDigits_eq]
    by_cases h10 : n < 10
    · rw [if_pos h10]
      refine ⟨by simp, ?_, ?_⟩
      · intro c hc
        rw [List.mem_singleton] at hc
        rw [hc]
        exact (digitChar_spec n h10).1
      · simp only [digitsVal, List.foldl_cons, List.foldl_nil]
        have h2 := (digitChar_spec n h10).2.1
        omega
    · rw [if_neg h10]
      have hdiv : n / 10 < n := Nat.div_lt_self (by omega) (by omega)
      obtain ⟨ih1, ih2, ih3⟩ := ih (n / 10) hdiv
      have hmod : n % 10 < 10 := Nat.mod_lt _ (by omega)
      refine ⟨by simp, ?_, ?_⟩
      · intro c hc
        rcases List.mem_append.mp hc with h | h
        · exact ih2 c h
        · rw [List.mem_singleton] at h
          rw [h]
          exact (digitChar_spec _ hmod).1
      · rw [digitsVal_append1, ih3]
        have h2 := (digitChar_spec (n % 10) hmod).2.1
        omega

theorem sscanfInt_goIntStr_nat (n : Nat) : sscanfInt (goIntStr (n : Int)) = (n : Int) := by
  obtain ⟨hne, hdig, hval⟩ := natDigits_spec n
  have hstr : (goIntStr (n : Int)).data = natDigits n := by
    unfold goIntStr
    rw [if_neg (by omega : ¬ ((n : Int) < 0))]
    simp
  unfold sscanfInt
  rw [hstr]
  cases hcs : natDigits n with
  | nil => exact absurd hcs hne
  | cons c rest =>
    have hcd : c.isDigit = true := hdig c (by rw [hcs]; exact List.mem_cons_self c rest)
    have hc1 : ¬ c = ' ' := by intro h; rw [h] at hcd; exact absurd hcd (by decide)
    have hc2 : ¬ c = '-' := by intro h; rw [h] at hcd; exact absurd hcd (by decide)
    have hc3 : ¬ c = '+' := by intro h; rw [h] at hcd; exact absurd hcd (by decide)
    rw [List.dropWhile_cons_of_neg (by simpa using hc1)]
    dsimp only
    rw [if_neg hc2, if_neg hc3]
    have htw : (c :: rest).takeWhile Char.isDigit = c :: rest := by
      apply List.takeWhile_eq_self_iff.mpr
      intro x hx
      exact hdig x (by rw [hcs]; exact hx)
    rw [htw, if_neg (by simp : ¬ (c :: rest) = []), ← hcs, hval]

theorem sscanfInt_goIntStr (v : Int) (hv : 0 ≤ v) : sscanfInt (goIntStr v) = v := by
  have h := sscanfInt_goIntStr_nat v.toNat
  rw [Int.toNat_of_nonneg hv] at h
  exact h

theorem splitOnceAux_comma : ∀ (k s : List Char), ¬ ',' ∈ k →
    splitOnceAux (k ++ ',' :: s) = some (k, s) := by
  intro k
  induction k with
  | nil => intro s _; simp [splitOnceAux]
  | cons c cs ih =>
    intro s hk
    have hc : ¬ c = ',' := by
      intro h
      exact hk (by rw [h]; exact List.mem_cons_self _ _)
    have hcs : ¬ ',' ∈ cs := fun h => hk (List.mem_cons_of_mem _ h)
    simp only [List.cons_append, splitOnceAux, if_neg hc, List.append_eq, ih s hcs]

theorem splitN2_key (k s : String) (hk : ¬ ',' ∈ k.data) :
    splitN2 (k ++ "," ++ s) = [k, s] := by
  unfold splitN2
  have hd : (k ++ "," ++ s).data = k.data ++ ',' :: s.data := by
    rw [String.data_append, String.data_append]
    simp
  rw [hd, splitOnceAux_comma k.data s.data hk]
theorem alGet_addTo_self (m : List (String × Int)) (k : String) (v : Int) :
    alGet (addTo m k v) k = some ((alGet m k).getD 0 + v) := by
  induction m with
  | nil => simp [addTo, alGet]
  | cons p ps ih =>
    by_cases hp : p.1 = k
    · simp [addTo, alGet, hp]
    · simp [addTo, alGet, hp, ih]

theorem alGet_addTo_ne (m : List (String × Int)) (k k2 : String) (v : Int)
    (h : ¬ k2 = k) : alGet (addTo m k v) k2 = alGet m k2 := by
  have h2 : ¬ k = k2 := fun hh => h hh.symm
  induction m with
  | nil => simp [addTo, alGet, h2]
  | cons p ps ih =>
    by_cases hp : p.1 = k
    · simp [addTo, alGet, hp, h, h2]
    · by_cases hp2 : p.1 = k2
      · simp [addTo, alGet, hp, hp2, h, h2]
      · simp [addTo, alGet, hp, hp2, ih]

theorem alGet_none_of_notin (m : List (String × Int)) (k : String)
    (h : ¬ k ∈ m.map Prod.fst) : alGet m k = none := by
  cases hg : alGet m k with
  | none => rfl
  | some v => exact absurd (alGet_mem_keys m k v hg) h

theorem addTo_keys_mem (m : List (String × Int)) (k : String) (v : Int) (x : String) :
    x ∈ (addTo m k v).map Prod.fst ↔ x ∈ m.map Prod.fst ∨ x = k := by
  induction m with
  | nil => simp [addTo]
  | cons p ps ih =>
    by_cases hp : p.1 = k
    · simp only [addTo, if_pos hp, List.map_cons, List.mem_cons, ih]
      constructor
      · rintro (h | h)
        · exact Or.inl (Or.inl h)
        · exact Or.inl (Or.inr h)
      · rintro ((h | h) | h)
        · exact Or.inl h
        · exact Or.inr h
        · exact Or.inl (hp ▸ h)
    · simp only [addTo, if_neg hp, List.map_cons, List.mem_cons, ih]
      tauto

theorem addTo_nodup (m : List (String × Int)) (k : String) (v : Int)
    (h : (m.map Prod.fst).Nodup) : ((addTo m k v).map Prod.fst).Nodup := by
  induction m with
  | nil => simp [addTo]
  | cons p ps ih =>
    obtain ⟨h1, h2⟩ := List.nodup_cons.mp h
    by_cases hp : p.1 = k
    · rw [addTo, if_pos hp]
      exact h
    · rw [addTo, if_neg hp]
      rw [List.map_cons]
      apply List.nodup_cons.mpr
      refine ⟨?_, ih h2⟩
      intro hmem
      rcases (addTo_keys_mem ps k v p.1).mp hmem with hx | hx
      · exact h1 hx
      · exact hp hx

theorem addTo_pos (m : List (String × Int)) (k : String) (v : Int)
    (hm : ∀ p ∈ m, 1 ≤ p.2) (hv : 1 ≤ v) : ∀ p ∈ addTo m k v, 1 ≤ p.2 := by
  induction m with
  | nil =>
    intro p hp
    rw [addTo, List.mem_singleton] at hp
    rw [hp]
    exact hv
  | cons q qs ih =>
    intro p hp
    by_cases hq : q.1 = k
    · rw [addTo, if_pos hq] at hp
      rcases List.mem_cons.mp hp with h | h
      · have hq2 : 1 ≤ q.2 := hm q (List.mem_cons_self _ _)
        rw [h]
        dsimp only
        omega
      · exact hm p (List.mem_cons_of_mem _ h)
    · rw [addTo, if_neg hq] at hp
      rcases List.mem_cons.mp hp with h | h
      · rw [h]; exact hm q (List.mem_cons_self _ _)
      · exact ih (fun r hr => hm r (List.mem_cons_of_mem _ hr)) p h

theorem addTo_cf (m : List (String × Int)) (k : String) (v : Int)
    (hm : ∀ p ∈ m, ¬ ',' ∈ p.1.data) (hk : ¬ ',' ∈ k.data) :
    ∀ p ∈ addTo m k v, ¬ ',' ∈ p.1.data := by
  induction m with
  | nil =>
    intro p hp
    rw [addTo, List.mem_singleton] at hp
    rw [hp]
    exact hk
  | cons q qs ih =>
    intro p hp
    by_cases hq : q.1 = k
    · rw [addTo, if_pos hq] at hp
      rcases List.mem_cons.mp hp with h | h
      · rw [h]
        exact hm q (List.mem_cons_self _ _)
      · exact hm p (List.mem_cons_of_mem _ h)
    · rw [addTo, if_neg hq] at hp
      rcases List.mem_cons.mp hp with h | h
      · rw [h]; exact hm q (List.mem_cons_self _ _)
      · exact ih (fun r hr => hm r (List.mem_cons_of_mem _ hr)) p h

theorem alGet_mem (m : List (String × Int)) (k : String) (v : Int)
    (h : alGet m k = some v) : (k, v) ∈ m := by
  induction m with
  | nil => simp [alGet] at h
  | cons p ps ih =>
    by_cases hp : p.1 = k
    · rw [alGet, if_pos hp] at h
      injection h with h2
      have he : (k, v) = p := by rw [← hp, ← h2]
      rw [he]
      exact List.mem_cons_self _ _
    · rw [alGet, if_neg hp] at h
      exact List.mem_cons_of_mem _ (ih h)

theorem mem_alGet_nodup (m : List (String × Int)) (k : String) (v : Int)
    (hnd : (m.map Prod.fst).Nodup) (h : (k, v) ∈ m) : alGet m k = some v := by
  induction m with
  | nil => simp at h
  | cons p ps ih =>
    rcases List.mem_cons.mp h with h1 | h1
    · rw [← h1, alGet, if_pos rfl]
    · have hk : k ∈ ps.map Prod.fst := List.mem_map.mpr ⟨(k, v), h1, rfl⟩
      have hp : ¬ p.1 = k := by
        intro hc
        exact (List.nodup_cons.mp hnd).1 (hc ▸ hk)
      rw [alGet, if_neg hp]
      exact ih (List.nodup_cons.mp hnd).2 h1
theorem bumpFold_val : ∀ (lines : List String) (m0 : List (String × Int)) (k : String),
    (alGet (lines.foldl bump m0) k).getD 0
      = (alGet m0 k).getD 0 + (lines.count k : Int) := by
  intro lines
  induction lines with
  | nil => intro m0 k; simp
  | cons L rest ih =>
    intro m0 k
    rw [List.foldl_cons, ih (bump m0 L) k]
    by_cases hk : k = L
    · subst hk
      have hc : (k :: rest).count k = rest.count k + 1 := by simp [List.count_cons]
      rw [bump, alGet_addTo_self m0 k 1, hc]
      simp only [Option.getD_some]
      push_cast
      omega
    · have h2 : ¬ L = k := fun hh => hk hh.symm
      have hc : (L :: rest).count k = rest.count k := by simp [List.count_cons, h2]
      rw [bump, alGet_addTo_ne m0 L k 1 hk, hc]

theorem bumpFold_nodup : ∀ (lines : List String) (m0 : List (String × Int)),
    (m0.map Prod.fst).Nodup → ((lines.foldl bump m0).map Prod.fst).Nodup := by
  intro lines
  induction lines with
  | nil => intro m0 h; exact h
  | cons L rest ih =>
    intro m0 h
    rw [List.foldl_cons]
    exact ih _ (addTo_nodup m0 L 1 h)

theorem bumpFold_pos : ∀ (lines : List String) (m0 : List (String × Int)),
    (∀ p ∈ m0, 1 ≤ p.2) → ∀ p ∈ lines.foldl bump m0, 1 ≤ p.2 := by
  intro lines
  induction lines with
  | nil => intro m0 h; exact h
  | cons L rest ih =>
    intro m0 h
    rw [List.foldl_cons]
    exact ih _ (addTo_pos m0 L 1 h (by omega))

/-- Total count a key carries across the dumped spill files. -/
def sumSpills : List (List (String × Int)) → String → Int
  | [], _ => 0
  | sp :: rest, k => (alGet sp k).getD 0 + sumSpills rest k

theorem sumSpills_append (s1 s2 : List (List (String × Int))) (k : String) :
    sumSpills (s1 ++ s2) k = sumSpills s1 k + sumSpills s2 k := by
  induction s1 with
  | nil => simp [sumSpills]
  | cons sp rest ih =>
    rw [List.cons_append, sumSpills, ih, sumSpills]
    ring

/-- One step of opReduceByKeyWithSpill phase 1. -/
def spillStep (t : Nat) (st : List (String × Int) × List (List (String × Int)))
    (line : String) : List (String × Int) × List (List (String × Int)) :=
  let m := bump st.1 line
  if t ≤ m.length then ([], st.2 ++ [m]) else (m, st.2)

theorem spillPhase1_eq (t : Nat) (lines : List String) :
    spillPhase1 t lines = lines.foldl (spillStep t) ([], []) := rfl

/-- Invariant of phase 1: in-memory map and every spill file have distinct
keys, strictly positive counts, and comma-free keys. -/
def spillInv (r : List (String × Int) × List (List (String × Int))) : Prop :=
  (r.1.map Prod.fst).Nodup ∧ (∀ sp ∈ r.2, (sp.map Prod.fst).Nodup) ∧
  (∀ p ∈ r.1, 1 ≤ p.2) ∧ (∀ sp ∈ r.2, ∀ p ∈ sp, 1 ≤ p.2) ∧
  (∀ p ∈ r.1, ¬ ',' ∈ p.1.data) ∧ (∀ sp ∈ r.2, ∀ p ∈ sp, ¬ ',' ∈ p.1.data)

/-- Total count a key carries in a phase-1 state (memory plus spills). -/
def spillCount (r : List (String × Int) × List (List (String × Int)))
    (k : String) : Int :=
  (alGet r.1 k).getD 0 + sumSpills r.2 k

theorem spillStep_inv (t : Nat) (r0 : List (String × Int) × List (List (String × Int)))
    (L : String) (hLcf : ¬ ',' ∈ L.data) (hinv : spillInv r0) :
    spillInv (spillStep t r0 L) := by
  obtain ⟨h1, h2, h3, h4, h5, h6⟩ := hinv
  dsimp only [spillStep]
  by_cases hlen : t ≤ (bump r0.1 L).length
  · rw [if_pos hlen]
    refine ⟨by simp, ?_, by simp, ?_, by simp, ?_⟩
    · intro sp hsp
      rcases List.mem_append.mp hsp with h | h
      · exact h2 sp h
      · rw [List.mem_singleton] at h
        rw [h]
        exact addTo_nodup r0.1 L 1 h1
    · intro sp hsp
      rcases List.mem_append.mp hsp with h | h
      · exact h4 sp h
      · rw [List.mem_singleton] at h
        rw [h]
        exact addTo_pos r0.1 L 1 h3 (by omega)
    · intro sp hsp
      rcases List.mem_append.mp hsp with h | h
      · exact h6 sp h
      · rw [List.mem_singleton] at h
        rw [h]
        exact addTo_cf r0.1 L 1 h5 hLcf
  · rw [if_neg hlen]
    exact ⟨addTo_nodup r0.1 L 1 h1, h2, addTo_pos r0.1 L 1 h3 (by omega), h4,
      addTo_cf r0.1 L 1 h5 hLcf, h6⟩

theorem spillStep_cnt (t : Nat) (r0 : List (String × Int) × List (List (String × Int)))
    (L : String) (k : String) :
    spillCount (spillStep t r0 L) k
      = spillCount r0 k + (if k = L then 1 else 0) := by
  have hval : (alGet (bump r0.1 L) k).getD 0
      = (alGet r0.1 k).getD 0 + (if k = L then 1 else 0) := by
    by_cases hk : k = L
    · subst hk
      rw [bump, alGet_addTo_self]
      simp
    · rw [bump, alGet_addTo_ne _ _ _ _ hk, if_neg hk]
      ring
  dsimp only [spillStep]
  by_cases hlen : t ≤ (bump r0.1 L).length
  · rw [if_pos hlen]
    unfold spillCount
    dsimp only
    rw [sumSpills_append, sumSpills, sumSpills, hval, alGet]
    dsimp only [Option.getD]
    ring
  · rw [if_neg hlen]
    unfold spillCount
    dsimp only
    rw [hval]
    ring

theorem spillFold_spec (t : Nat) :
    ∀ (lines : List String) (r0 : List (String × Int) × List (List (String × Int))),
    (∀ L ∈ lines, ¬ ',' ∈ L.data) → spillInv r0 →
    spillInv (lines.foldl (spillStep t) r0) ∧
    ∀ k, spillCount (lines.foldl (spillStep t) r0) k
        = spillCount r0 k + (lines.count k : Int) := by
  intro lines
  induction lines with
  | nil => intro r0 _ h; exact ⟨h, fun k => by simp⟩
  | cons L rest ih =>
    intro r0 hcf hinv
    rw [List.foldl_cons]
    have hLcf : ¬ ',' ∈ L.data := hcf L (List.mem_cons_self _ _)
    have hrest : ∀ x ∈ rest, ¬ ',' ∈ x.data := fun x hx => hcf x (List.mem_cons_of_mem _ hx)
    obtain ⟨hinv2, hcnt2⟩ := ih (spillStep t r0 L) hrest (spillStep_inv t r0 L hLcf hinv)
    refine ⟨hinv2, fun k => ?_⟩
    rw [hcnt2 k, spillStep_cnt t r0 L k]
    by_cases hk : k = L
    · subst hk
      have hc : (k :: rest).count k = rest.count k + 1 := by simp [List.count_cons]
      rw [hc, if_pos rfl]
      push_cast
      ring
    · have h2 : ¬ L = k := fun hh => hk hh.symm
      have hc : (L :: rest).count k = rest.count k := by simp [List.count_cons, h2]
      rw [hc, if_neg hk]
      ring

theorem spillPhase1_spec (t : Nat) (lines : List String)
    (hcf : ∀ L ∈ lines, ¬ ',' ∈ L.data) :
    spillInv (spillPhase1 t lines) ∧
    ∀ k, spillCount (spillPhase1 t lines) k = (lines.count k : Int) := by
  rw [spillPhase1_eq]
  have h0 : spillInv (([], []) : List (String × Int) × List (List (String × Int))) := by
    refine ⟨by simp, by simp, by simp, by simp, by simp, by simp⟩
  obtain ⟨h1, h2⟩ := spillFold_spec t lines ([], []) hcf h0
  refine ⟨h1, fun k => ?_⟩
  rw [h2 k]
  simp [spillCount, sumSpills, alGet]
theorem mergeSpill_cons (m : List (String × Int)) (line : String) (rest : List String) :
    mergeSpill m (line :: rest) = mergeSpill (
      match splitN2 line with
      | [a, b] => addTo m a (sscanfInt b)
      | _ => m) rest := rfl

theorem mergeSpill_dump : ∀ (sp : List (String × Int)) (m : List (String × Int)),
    (∀ p ∈ sp, ¬ ',' ∈ p.1.data) → (∀ p ∈ sp, 1 ≤ p.2) →
    mergeSpill m (sp.map dumpLine)
      = sp.foldl (fun acc q => addTo acc q.1 q.2) m := by
  intro sp
  induction sp with
  | nil => intro m _ _; rfl
  | cons p rest ih =>
    intro m hcf hpos
    have hp1 : ¬ ',' ∈ p.1.data := hcf p (List.mem_cons_self _ _)
    have hp2 : 1 ≤ p.2 := hpos p (List.mem_cons_self _ _)
    have hsplit : splitN2 (dumpLine p) = [p.1, goIntStr p.2] :=
      splitN2_key p.1 (goIntStr p.2) hp1
    rw [List.map_cons, List.foldl_cons, mergeSpill_cons, hsplit]
    dsimp only
    rw [sscanfInt_goIntStr p.2 (by omega)]
    exact ih (addTo m p.1 p.2) (fun q hq => hcf q (List.mem_cons_of_mem _ hq))
      (fun q hq => hpos q (List.mem_cons_of_mem _ hq))

theorem foldAdd_val : ∀ (sp m : List (String × Int)) (k : String),
    (sp.map Prod.fst).Nodup →
    (alGet (sp.foldl (fun acc q => addTo acc q.1 q.2) m) k).getD 0
      = (alGet m k).getD 0 + (alGet sp k).getD 0 := by
  intro sp
  induction sp with
  | nil => intro m k _; simp [alGet]
  | cons p rest ih =>
    intro m k hnd
    obtain ⟨hnotin, hnd2⟩ := List.nodup_cons.mp hnd
    rw [List.foldl_cons, ih (addTo m p.1 p.2) k hnd2]
    by_cases hk : k = p.1
    · subst hk
      rw [alGet_addTo_self]
      have hrest : alGet rest p.1 = none := alGet_none_of_notin rest p.1 hnotin
      rw [hrest, alGet, if_pos rfl]
      simp
    · rw [alGet_addTo_ne m p.1 k p.2 hk, alGet, if_neg (fun hh => hk hh.symm)]

theorem foldAdd_nodup : ∀ (sp m : List (String × Int)),
    (m.map Prod.fst).Nodup →
    ((sp.foldl (fun acc q => addTo acc q.1 q.2) m).map Prod.fst).Nodup := by
  intro sp
  induction sp with
  | nil => intro m h; exact h
  | cons p rest ih =>
    intro m h
    rw [List.foldl_cons]
    exact ih _ (addTo_nodup m p.1 p.2 h)

theorem foldAdd_pos : ∀ (sp m : List (String × Int)),
    (∀ p ∈ m, 1 ≤ p.2) → (∀ p ∈ sp, 1 ≤ p.2) →
    ∀ p ∈ sp.foldl (fun acc q => addTo acc q.1 q.2) m, 1 ≤ p.2 := by
  intro sp
  induction sp with
  | nil => intro m h _; exact h
  | cons p rest ih =>
    intro m h hsp
    rw [List.foldl_cons]
    exact ih _ (addTo_pos m p.1 p.2 h (hsp p (List.mem_cons_self _ _)))
      (fun q hq => hsp q (List.mem_cons_of_mem _ hq))

theorem foldAdd_cf : ∀ (sp m : List (String × Int)),
    (∀ p ∈ m, ¬ ',' ∈ p.1.data) → (∀ p ∈ sp, ¬ ',' ∈ p.1.data) →
    ∀ p ∈ sp.foldl (fun acc q => addTo acc q.1 q.2) m, ¬ ',' ∈ p.1.data := by
  intro sp
  induction sp with
  | nil => intro m h _; exact h
  | cons p rest ih =>
    intro m h hsp
    rw [List.foldl_cons]
    exact ih _ (addTo_cf m p.1 p.2 h (hsp p (List.mem_cons_self _ _)))
      (fun q hq => hsp q (List.mem_cons_of_mem _ hq))

theorem mergeAll_spec : ∀ (spills : List (List (String × Int))) (m : List (String × Int)),
    (m.map Prod.fst).Nodup → (∀ p ∈ m, 1 ≤ p.2) → (∀ p ∈ m, ¬ ',' ∈ p.1.data) →
    (∀ sp ∈ spills, (sp.map Prod.fst).Nodup) →
    (∀ sp ∈ spills, ∀ p ∈ sp, 1 ≤ p.2) →
    (∀ sp ∈ spills, ∀ p ∈ sp, ¬ ',' ∈ p.1.data) →
    ((spills.foldl (fun acc sp => mergeSpill acc (sp.map dumpLine)) m).map Prod.fst).Nodup ∧
    (∀ p ∈ spills.foldl (fun acc sp => mergeSpill acc (sp.map dumpLine)) m, 1 ≤ p.2) ∧
    ∀ k, (alGet (spills.foldl (fun acc sp => mergeSpill acc (sp.map dumpLine)) m) k).getD 0
        = (alGet m k).getD 0 + sumSpills spills k := by
  intro spills
  induction spills with
  | nil =>
    intro m h1 h2 _ _ _ _
    exact ⟨h1, h2, fun k => by simp [sumSpills]⟩
  | cons sp rest ih =>
    intro m h1 h2 h3 hs1 hs2 hs3
    have hsp1 := hs1 sp (List.mem_cons_self _ _)
    have hsp2 := hs2 sp (List.mem_cons_self _ _)
    have hsp3 := hs3 sp (List.mem_cons_self _ _)
    rw [List.foldl_cons, mergeSpill_dump sp m hsp3 hsp2]
    obtain ⟨g1, g2, g3⟩ := ih (sp.foldl (fun acc q => addTo acc q.1 q.2) m)
      (foldAdd_nodup sp m h1) (foldAdd_pos sp m h2 hsp2) (foldAdd_cf sp m h3 hsp3)
      (fun x hx => hs1 x (List.mem_cons_of_mem _ hx))
      (fun x hx => hs2 x (List.mem_cons_of_mem _ hx))
      (fun x hx => hs3 x (List.mem_cons_of_mem _ hx))
    refine ⟨g1, g2, fun k => ?_⟩
    rw [g3 k, foldAdd_val sp m k hsp1, sumSpills]
    ring

theorem counts_mem_iff (m : List (String × Int)) (hnd : (m.map Prod.fst).Nodup)
    (hpos : ∀ p ∈ m, 1 ≤ p.2) (k : String) (v : Int) :
    (k, v) ∈ m ↔ (alGet m k).getD 0 = v ∧ 1 ≤ v := by
  constructor
  · intro h
    rw [mem_alGet_nodup m k v hnd h]
    exact ⟨rfl, hpos (k, v) h⟩
  · rintro ⟨h1, h2⟩
    cases hg : alGet m k with
    | none =>
      rw [hg] at h1
      simp at h1
      omega
    | some w =>
      rw [hg] at h1
      simp at h1
      rw [h1] at hg
      exact alGet_mem m k v hg

/-- C7: provided no input line contains a comma, the spill-based reduce of
executor.go produces, for every threshold t with 1 ≤ t, the same multiset of
output lines as the in-memory ReduceByKey of operators.go. -/
theorem spill_reduce_equivalence (t : Nat) (fs : FS) (inputs : List String)
    (ht : 1 ≤ t)
    (hcf : ∀ L ∈ gatherLines fs inputs, ¬ ',' ∈ L.data) :
    List.Perm (reduceWithSpillLines t fs inputs) (reduceByKeyLines fs inputs) := by
  obtain ⟨⟨f1, f2, f3, f4, f5, f6⟩, fcnt⟩ :=
    spillPhase1_spec t (gatherLines fs inputs) hcf
  obtain ⟨g1, g2, g3⟩ := mergeAll_spec (spillPhase1 t (gatherLines fs inputs)).2
    (spillPhase1 t (gatherLines fs inputs)).1 f1 f3 f5 f2 f4 f6
  have hFnd : ((reduceWithSpillCounts t fs inputs).map Prod.fst).Nodup := g1
  have hFpos : ∀ p ∈ reduceWithSpillCounts t fs inputs, 1 ≤ p.2 := g2
  have hFval : ∀ k, (alGet (reduceWithSpillCounts t fs inputs) k).getD 0
      = ((gatherLines fs inputs).count k : Int) := by
    intro k
    have h2 := fcnt k
    unfold spillCount at h2
    have h3 : (alGet (reduceWithSpillCounts t fs inputs) k).getD 0
        = (alGet (spillPhase1 t (gatherLines fs inputs)).1 k).getD 0
          + sumSpills (spillPhase1 t (gatherLines fs inputs)).2 k := g3 k
    omega
  have hMnd : ((reduceByKeyCounts fs inputs).map Prod.fst).Nodup :=
    bumpFold_nodup (gatherLines fs inputs) [] (by simp)
  have hMpos : ∀ p ∈ reduceByKeyCounts fs inputs, 1 ≤ p.2 :=
    bumpFold_pos (gatherLines fs inputs) [] (by simp)
  have hMval : ∀ k, (alGet (reduceByKeyCounts fs inputs) k).getD 0
      = ((gatherLines fs inputs).count k : Int) := by
    intro k
    have h := bumpFold_val (gatherLines fs inputs) [] k
    simpa [alGet] using h
  have hperm : List.Perm (reduceWithSpillCounts t fs inputs) (reduceByKeyCounts fs inputs) := by
    apply (List.perm_ext_iff_of_nodup (hFnd.of_map _) (hMnd.of_map _)).mpr
    intro a
    obtain ⟨k, v⟩ := a
    rw [counts_mem_iff _ hFnd hFpos k v, counts_mem_iff _ hMnd hMpos k v,
      hFval k, hMval k]
  exact List.Perm.map countLine hperm

/-- A comma-free word-count input for the C7 witness. -/
def fsSpill : FS := fun p => if p = "w.txt" then some ["x", "y", "x"] else none

/-- Witness for C7: threshold 1 (spill after every line) and the in-memory
reduce agree on a concrete input. -/
theorem spill_reduce_equivalence_witness :
    1 ≤ 1 ∧ (∀ L ∈ gatherLines fsSpill ["w.txt"], ¬ ',' ∈ L.data) ∧
    List.Perm (reduceWithSpillLines 1 fsSpill ["w.txt"]) (reduceByKeyLines fsSpill ["w.txt"]) :=
  ⟨by decide, by decide,
   spill_reduce_equivalence 1 fsSpill ["w.txt"] (by decide) (by decide)⟩

theorem splitOnceAux_none : ∀ (cs : List Char), ¬ ',' ∈ cs → splitOnceAux cs = none := by
  intro cs
  induction cs with
  | nil => intro _; rfl
  | cons c rest ih =>
    intro h
    have hc : ¬ c = ',' := by
      intro hh
      exact h (by rw [hh]; exact List.mem_cons_self _ _)
    have hr : ¬ ',' ∈ rest := fun hh => h (List.mem_cons_of_mem _ hh)
    rw [splitOnceAux, if_neg hc, ih hr]

theorem splitN2_nocomma (s : String) (h : ¬ ',' ∈ s.data) : splitN2 s = [s] := by
  unfold splitN2
  rw [splitOnceAux_none s.data h]

theorem splitOnceAux_some : ∀ (cs r1 r2 : List Char),
    splitOnceAux cs = some (r1, r2) → cs = r1 ++ ',' :: r2 ∧ ¬ ',' ∈ r1 := by
  intro cs
  induction cs with
  | nil => intro r1 r2 h; exact absurd h (by simp [splitOnceAux])
  | cons c rest ih =>
    intro r1 r2 h
    rw [splitOnceAux] at h
    by_cases hc : c = ','
    · rw [if_pos hc] at h
      injection h with h2
      rw [Prod.mk.injEq] at h2
      obtain ⟨ha, hb⟩ := h2
      subst ha
      subst hb
      exact ⟨by rw [hc]; rfl, by simp⟩
    · rw [if_neg hc] at h
      cases hrec : splitOnceAux rest with
      | none => rw [hrec] at h; exact absurd h (by simp)
      | some r =>
        rw [hrec] at h
        dsimp only at h
        injection h with h2
        rw [Prod.mk.injEq] at h2
        obtain ⟨ha, hb⟩ := h2
        subst ha
        subst hb
        obtain ⟨hx, hy⟩ := ih r.1 r.2 (by rw [hrec])
        constructor
        · rw [hx, List.cons_append]
        · intro hmem
          rcases List.mem_cons.mp hmem with h3 | h3
          · exact hc h3.symm
          · exact hy h3

theorem splitN2_recon (s a b : String) (h : splitN2 s = [a, b]) :
    s = a ++ "," ++ b ∧ ¬ ',' ∈ a.data := by
  unfold splitN2 at h
  cases hsp : splitOnceAux s.data with
  | none =>
    rw [hsp] at h
    exact absurd h (by simp)
  | some r =>
    rw [hsp] at h
    dsimp only at h
    rw [List.cons.injEq, List.cons.injEq] at h
    obtain ⟨h1, h2, _⟩ := h
    obtain ⟨hcs, hcf⟩ := splitOnceAux_some s.data r.1 r.2 (by rw [hsp])
    subst h1
    subst h2
    constructor
    · have hs : s = String.mk (r.1 ++ ',' :: r.2) := by rw [← hcs]
      rw [hs]
      apply congrArg String.mk
        (?_ : _ = (String.mk r.1 ++ "," ++ String.mk r.2).data)
      rw [String.data_append, String.data_append]
      simp
    · exact hcf

theorem foldl_filter_inert {σ : Type} (f : σ → String → σ) (p : String → Bool)
    (hf : ∀ s line, p line = false → f s line = s) :
    ∀ (l : List String) (s0 : σ), l.foldl f s0 = (l.filter p).foldl f s0 := by
  intro l
  induction l with
  | nil => intro s0; rfl
  | cons x xs ih =>
    intro s0
    by_cases hx : p x = true
    · rw [List.filter_cons_of_pos hx, List.foldl_cons, List.foldl_cons, ih]
    · have hx2 : p x = false := by simpa using hx
      rw [List.filter_cons_of_neg (by simp [hx2]), List.foldl_cons, hf s0 x hx2, ih]

/-- The left-side hash map Join builds (text before the first comma is the
key; lines without a comma are skipped). -/
def leftMapOf (left : List String) : List (String × String) :=
  left.foldl (fun m line =>
    match splitN2 line with
    | [a, b] => alSet m a b
    | _ => m) ([] : List (String × String))

/-- The streamed right side of Join against a fixed left map. -/
def joinOut (lm : List (String × String)) (right : List String) : List String :=
  right.foldl (fun out line =>
    match splitN2 line with
    | [a, b] =>
      match alGet lm a with
      | some vl => out ++ [a ++ ", " ++ vl ++ ", " ++ b]
      | none => out
    | _ => out) []

theorem joinLines_eq (left right : List String) :
    joinLines left right = joinOut (leftMapOf left) right := rfl

theorem leftMapOf_filter (left : List String) :
    leftMapOf left = leftMapOf (left.filter (fun s => decide (',' ∈ s.data))) := by
  unfold leftMapOf
  apply foldl_filter_inert
  intro m line hline
  have h2 : ¬ ',' ∈ line.data := by simpa using hline
  try dsimp only
  rw [splitN2_nocomma line h2]

theorem joinOut_filter (lm : List (String × String)) (right : List String) :
    joinOut lm right = joinOut lm (right.filter (fun s => decide (',' ∈ s.data))) := by
  unfold joinOut
  apply foldl_filter_inert
  intro out line hline
  have h2 : ¬ ',' ∈ line.data := by simpa using hline
  try dsimp only
  rw [splitN2_nocomma line h2]

theorem leftFold_mem : ∀ (left : List String) (m0 : List (String × String)) (a v : String),
    alGet (left.foldl (fun m line =>
      match splitN2 line with
      | [a, b] => alSet m a b
      | _ => m) m0) a = some v →
    (∃ line ∈ left, splitN2 line = [a, v]) ∨ alGet m0 a = some v := by
  intro left
  induction left with
  | nil => intro m0 a v h; exact Or.inr h
  | cons x xs ih =>
    intro m0 a v h
    rw [List.foldl_cons] at h
    rcases ih _ a v h with h1 | h1
    · obtain ⟨line, hl, hs⟩ := h1
      exact Or.inl ⟨line, List.mem_cons_of_mem _ hl, hs⟩
    · revert h1
      try dsimp only
      cases hsp : splitN2 x with
      | nil => intro h1; exact Or.inr h1
      | cons a2 t1 =>
        cases t1 with
        | nil => intro h1; exact Or.inr h1
        | cons b2 t2 =>
          cases t2 with
          | nil =>
            by_cases hk : a2 = a
            · subst hk
              rw [alGet_alSet_self]
              intro h1
              injection h1 with h2
              subst h2
              exact Or.inl ⟨x, List.mem_cons_self _ _, hsp⟩
            · rw [alGet_alSet_ne m0 a2 a b2 (fun hh => hk hh.symm)]
              intro h1
              exact Or.inr h1
          | cons c t3 => intro h1; exact Or.inr h1

theorem joinOut_mem : ∀ (right : List String) (lm : List (String × String))
    (out0 : List String) (o : String),
    o ∈ right.foldl (fun out line =>
      match splitN2 line with
      | [a, b] =>
        match alGet lm a with
        | some vl => out ++ [a ++ ", " ++ vl ++ ", " ++ b]
        | none => out
      | _ => out) out0 →
    o ∈ out0 ∨ ∃ line ∈ right, ∃ a b vl, splitN2 line = [a, b] ∧
      alGet lm a = some vl ∧ o = a ++ ", " ++ vl ++ ", " ++ b := by
  intro right
  induction right with
  | nil => intro lm out0 o h; exact Or.inl h
  | cons x xs ih =>
    intro lm out0 o h
    rw [List.foldl_cons] at h
    rcases ih lm _ o h with h1 | h1
    · revert h1
      try dsimp only
      cases hsp : splitN2 x with
      | nil => intro h1; exact Or.inl h1
      | cons a2 t1 =>
        cases t1 with
        | nil => intro h1; exact Or.inl h1
        | cons b2 t2 =>
          cases t2 with
          | nil =>
            dsimp only
            cases hget : alGet lm a2 with
            | none => dsimp only; intro h1; exact Or.inl h1
            | some vl =>
              dsimp only
              intro h1
              rcases List.mem_append.mp h1 with h2 | h2
              · exact Or.inl h2
              · rw [List.mem_singleton] at h2
                exact Or.inr ⟨x, List.mem_cons_self _ _, a2, b2, vl, hsp, hget, h2⟩
          | cons c t3 => intro h1; exact Or.inl h1
    · obtain ⟨line, hl, rest⟩ := h1
      exact Or.inr ⟨line, List.mem_cons_of_mem _ hl, rest⟩

/-- C10: Join keeps only lines with a comma — dropping every comma-free left
or right line leaves the output unchanged — and every output line is
`key, left_rest, right_rest` built from a left line `key,left_rest` and a
right line `key,right_rest` that are both present in the inputs. -/
theorem join_comma_lines_only (left right : List String) :
    joinLines left right
      = joinLines (left.filter (fun s => decide (',' ∈ s.data)))
                  (right.filter (fun s => decide (',' ∈ s.data))) ∧
    ∀ out ∈ joinLines left right, ∃ k l r,
      out = k ++ ", " ++ l ++ ", " ++ r ∧
      (k ++ "," ++ l) ∈ left ∧ (k ++ "," ++ r) ∈ right := by
  constructor
  · rw [joinLines_eq, joinLines_eq, ← leftMapOf_filter, joinOut_filter]
  · intro out hout
    rw [joinLines_eq] at hout
    rcases joinOut_mem right (leftMapOf left) [] out hout with h | h
    · exact absurd h (by simp)
    · obtain ⟨line, hline, a, b, vl, hsp, hget, ho⟩ := h
      obtain ⟨hrecon, _⟩ := splitN2_recon line a b hsp
      rcases leftFold_mem left ([] : List (String × String)) a vl hget with hL | hL
      · obtain ⟨lline, hll, hls⟩ := hL
        obtain ⟨hlr, _⟩ := splitN2_recon lline a vl hls
        exact ⟨a, vl, b, ho, by rw [← hlr]; exact hll, by rw [← hrecon]; exact hline⟩
      · exact absurd hL (by simp [alGet])

/-- Witness for C10 at a concrete join: the single output line of
joining given left and right inputs decomposes as the theorem states. -/
theorem join_comma_lines_only_witness :
    "a, 1, 2" ∈ joinLines ["a,1", "plain"] ["a,2"] ∧
    ∃ k l r, ("a, 1, 2" : String) = k ++ ", " ++ l ++ ", " ++ r ∧
      (k ++ "," ++ l) ∈ ["a,1", "plain"] ∧ (k ++ "," ++ r) ∈ (["a,2"] : List String) :=
  ⟨by decide,
   (join_comma_lines_only ["a,1", "plain"] ["a,2"]).2 "a, 1, 2" (by decide)⟩

end MiniSpark
